import Mathlib

/-!
# Verification of the block-production miner (`src/chains/ethereum/src/miner.ts`)

A shallow embedding of the miner's transaction-selection state machine.
Transactions are identified by natural-number ids; their immutable data
(`from`, `gasPrice`, intrinsic gas) lives in an environment `Env`, while the
mutable `locked` flag lives in the miner state.  The EVM is an oracle
`Evm : Nat → Except String Nat` returning the gas used or throwing with a
message.  Asynchronous suspension is irrelevant to the verified properties,
so every operation is a pure state transformer; the state-manager
checkpoint/commit/revert calls are recorded in an event log.  Merkle tries,
the block bloom, timestamps and serialized bytes are opaque artifacts not
referenced by any property and are elided.
-/

namespace Miner

/-- Immutable per-transaction data exposed to the miner: `tx.from` (origin,
as the hex string produced by `Data.from(tx.from).toString()`), `tx.gasPrice`
and `tx.calculateIntrinsicGas()`. -/
structure TxData where
  fromAddr : String
  gasPrice : Nat
  intrinsicGas : Nat
deriving Repr, DecidableEq

/-- Environment mapping a transaction id to its immutable data. -/
abbrev Env := Nat → TxData

/-- EVM oracle: `vm.runTx` either returns a result (its `gasUsed`) or throws
with an error message. -/
abbrev Evm := Nat → Except String Nat

/-- Gas used by a transaction according to the EVM oracle (0 for a throwing
transaction, which is never accepted into a block). -/
def txGasUsed (evm : Evm) (t : Nat) : Nat :=
  match evm t with
  | Except.ok g => g
  | Except.error _ => 0

/-- Modelled from the spec: `params.TRANSACTION_GAS`, the minimum intrinsic
transfer cost used by the "enough gas left" check (the `params` module is not
under `src/`). -/
def TRANSACTION_GAS : Nat := 21000

/-- One state-manager call recorded by the miner
(`#checkpoint` / `#commit` / `#revert`). -/
inductive CkptEvent where
  | checkpoint
  | commit
  | revert
deriving Repr, DecidableEq

/-- Record of a `tx.finalize("rejected", new RuntimeError(...))` call made by
`#runTx`'s error handler: the status, the EVM error message and the synthetic
trace's program counter. -/
structure FinalizeRec where
  txId : Nat
  status : String
  errMsg : String
  programCounter : Nat
deriving Repr, DecidableEq

/-! ## The priced heap

Modelled from the spec: `utils.Heap` (from `@ganache/utils`) is not under
`src/`.  Per spec §4.1 it is a binary max-heap comparing with the miner's
`byPrice` (`gasPrice` higher first): `peek` returns a maximal element,
`removeBest` removes it and reports whether a root remains, `replaceBest`
overwrites the root, `push` inserts.  The heap is represented as a list of
transaction ids and `peek` deterministically picks a maximal-`gasPrice`
element. -/

/-- Pick the element of larger `gasPrice` (first one on ties). -/
def pickMax (env : Env) (b y : Nat) : Nat :=
  if (env b).gasPrice < (env y).gasPrice then y else b

/-- `heap.peek()`: a maximal-`gasPrice` element, or `none` on the empty heap. -/
def heapPeek (env : Env) : List Nat → Option Nat
  | [] => none
  | x :: xs => some (xs.foldl (pickMax env) x)

/-- `heap.removeBest()`: remove the root; the boolean reports whether a new
root exists. -/
def heapRemoveBest (env : Env) (h : List Nat) : List Nat × Bool :=
  match heapPeek env h with
  | none => (h, false)
  | some b =>
    let h' := h.erase b
    (h', !h'.isEmpty)

/-- `heap.replaceBest(x)`: overwrite the root with `x`. -/
def heapReplaceBest (env : Env) (h : List Nat) (x : Nat) : List Nat :=
  match heapPeek env h with
  | none => [x]
  | some b => x :: h.erase b

/-! ## The live pending pool

`executables.pending` is a `Map` from origin (hex string) to a per-origin
nonce-ordered min-heap.  Modelled from the spec: the per-origin heap (also a
`utils.Heap`, not under `src/`) is represented as a nonce-sorted list whose
head is the lowest-nonce transaction; the miner only peeks it and removes its
head. -/

/-- `pending.get(o)`. -/
def poolLookup : List (String × List Nat) → String → Option (List Nat)
  | [], _ => none
  | (k, v) :: rest, o => if k = o then some v else poolLookup rest o

/-- The per-origin heap for `o` (empty when absent). -/
def poolHeap (p : List (String × List Nat)) (o : String) : List Nat :=
  (poolLookup p o).getD []

/-- `pending.get(o).peek()`. -/
def poolPeek (p : List (String × List Nat)) (o : String) : Option Nat :=
  (poolLookup p o).bind List.head?

/-- Overwrite origin `o`'s heap contents. -/
def poolSet : List (String × List Nat) → String → List Nat → List (String × List Nat)
  | [], _, _ => []
  | (k, v) :: rest, o, l => if k = o then (k, l) :: rest else (k, v) :: poolSet rest o l

/-- `pending.get(o).removeBest()`: drop the head of origin `o`'s heap; the
boolean reports whether transactions remain.  (The miner only calls this for
origins it obtained a transaction from, so the entry exists.) -/
def poolRemoveBest (p : List (String × List Nat)) (o : String) :
    List (String × List Nat) × Bool :=
  match poolLookup p o with
  | none => (p, false)
  | some l => (poolSet p o l.tail, !l.tail.isEmpty)

/-! ## Miner state and operations -/

/-- The miner's mutable private state.  `locked` is the per-transaction
`tx.locked` flag (owned by the miner as a cross-component lease);
`pendingFlag` is the private `#pending` re-entry flag; `finalizedLog` records
`tx.finalize` calls made by `#runTx`'s error handler. -/
structure MinerState where
  origins : List String
  priced : List Nat
  locked : Nat → Bool
  pending : List (String × List Nat)
  currentlyExecutingPrice : Nat
  isBusy : Bool
  pendingFlag : Bool
  inProgress : List Nat
  finalizedLog : List FinalizeRec

/-- Point-update of the `locked` flag of one transaction. -/
def lockSet (locked : Nat → Bool) (t : Nat) (v : Bool) : Nat → Bool :=
  fun i => if i = t then v else locked i

/-- `Set.add` on the origin set (no duplicates). -/
def originInsert (o : String) (l : List String) : List String :=
  if o ∈ l then l else o :: l

/-- A freshly-constructed miner observing pool `pending`: empty priced heap
and origin set, nothing locked, not busy, no `#pending` flag. -/
def initState (pending : List (String × List Nat)) : MinerState :=
  { origins := []
    priced := []
    locked := fun _ => false
    pending := pending
    currentlyExecutingPrice := 0
    isBusy := false
    pendingFlag := false
    inProgress := []
    finalizedLog := [] }

/-- One origin of the `#setPricedHeap` iteration: peek the per-origin heap;
if the head exists and is not locked, add its origin, push it and lock it. -/
def seedStep (env : Env) (s : MinerState) (entry : String × List Nat) : MinerState :=
  match entry.2.head? with
  | none => s
  | some next =>
    if s.locked next then s
    else
      { s with
        origins := originInsert (env next).fromAddr s.origins
        priced := next :: s.priced
        locked := lockSet s.locked next true }

/-- `#setPricedHeap`: seed the priced heap from every origin of the live
pending mapping. -/
def setPricedHeap (env : Env) (st : MinerState) : MinerState :=
  st.pending.foldl (seedStep env) st

/-- One origin of the `#updatePricedHeap` iteration: peek the per-origin
heap; skip a locked head, a head whose price is beaten by
`#currentlyExecutingPrice`, and an origin already represented; otherwise add
the origin, push the head and lock it. -/
def updateStep (env : Env) (s : MinerState) (entry : String × List Nat) : MinerState :=
  match entry.2.head? with
  | none => s
  | some next =>
    if s.locked next then s
    else if s.currentlyExecutingPrice > (env next).gasPrice then s
    else if (env next).fromAddr ∈ s.origins then s
    else
      { s with
        origins := originInsert (env next).fromAddr s.origins
        priced := next :: s.priced
        locked := lockSet s.locked next true }

/-- `#updatePricedHeap`: absorb new pool arrivals between sub-blocks. -/
def updatePricedHeap (env : Env) (st : MinerState) : MinerState :=
  st.pending.foldl (updateStep env) st

/-- `#reset`: clear the origin set and the priced heap and drop `#isBusy`.
The `locked` flags of transactions are untouched. -/
def reset (st : MinerState) : MinerState :=
  { st with origins := [], priced := [], isBusy := false }

/-- `replaceFromHeap(priced, source)` (module-scope helper, lines 25-38):
peek the source heap; if a next transaction exists, replace the priced root
with it and lock it (returning `true`); otherwise remove the priced root.
Returns the new priced heap, the new lock flags and the boolean result. -/
def replaceFromHeap (env : Env) (priced : List Nat) (locked : Nat → Bool)
    (source : List Nat) : List Nat × (Nat → Bool) × Bool :=
  match source.head? with
  | some next => (heapReplaceBest env priced next, lockSet locked next true, true)
  | none =>
    let r := heapRemoveBest env priced
    (r.1, locked, r.2)

/-- `#runTx` (lines 343-368): run the EVM.  On success return its result.
If the EVM throws: advance the pool for this origin (`removeBest`, then
`replaceFromHeap` if more remain, else `priced.removeBest()`), finalize the
transaction as "rejected" with a runtime error carrying the EVM message and a
zero-program-counter synthetic trace, and return `none` (null).  The error is
swallowed, never re-thrown. -/
def runTx (env : Env) (evm : Evm) (st : MinerState) (tx : Nat) (origin : String) :
    MinerState × Option Nat :=
  match evm tx with
  | Except.ok result => (st, some result)
  | Except.error errorMessage =>
    let pr := poolRemoveBest st.pending origin
    let st1 := { st with pending := pr.1 }
    let st2 :=
      if pr.2 then
        let rf := replaceFromHeap env st1.priced st1.locked (poolHeap pr.1 origin)
        { st1 with priced := rf.1, locked := rf.2.1 }
      else
        { st1 with priced := (heapRemoveBest env st1.priced).1 }
    ({ st2 with
        finalizedLog := st2.finalizedLog ++ [⟨tx, "rejected", errorMessage, 0⟩] },
      none)

/-! ## The selection loop -/

/-- The loop-local variables of one `#mineTxs` block build, together with the
miner state: `blockGasLeft`, `numTransactions`, the accumulating
`blockData.gasUsed` and `blockTransactions`, the checkpoint log and the
`keepMining` flag. -/
structure LoopState where
  ms : MinerState
  blockGasLeft : Nat
  numTransactions : Nat
  gasUsed : Nat
  blockTransactions : List Nat
  ckptLog : List CkptEvent
  keepMining : Bool

/-- Control outcome of one selection-loop iteration. -/
inductive StepResult where
  | continueLoop
  | breakLoop
  | exitLoop
deriving Repr, DecidableEq

/-- One iteration of the `while ((best = priced.peek()))` selection loop
(lines 201-308).  Paths:
* heap empty: exit the loop;
* intrinsic gas exceeds `blockGasLeft`: remove the root, unlock it, delete
  its origin, continue — no checkpoint, no EVM call;
* otherwise checkpoint and run the EVM:
  - EVM threw (`runTx` returned null, having already advanced the pool):
    revert, continue;
  - result fits (`blockGasLeft >= gasUsed`): commit, append to the block,
    account gas, remove the pool head, add to `inProgress`, refill the priced
    root from the same origin (or remove it), then break when the block is
    out of gas or full, else continue;
  - result does not fit: revert, unlock, remove the root without refilling,
    continue. -/
def mineStep (env : Env) (evm : Evm) (maxTransactions : Int) (ls : LoopState) :
    LoopState × StepResult :=
  match heapPeek env ls.ms.priced with
  | none => (ls, StepResult.exitLoop)
  | some best =>
    let origin := (env best).fromAddr
    if (env best).intrinsicGas > ls.blockGasLeft then
      ({ ls with
          ms := { ls.ms with
            priced := (heapRemoveBest env ls.ms.priced).1
            locked := lockSet ls.ms.locked best false
            origins := ls.ms.origins.erase origin } },
        StepResult.continueLoop)
    else
      let ms0 := { ls.ms with currentlyExecutingPrice := (env best).gasPrice }
      let log0 := ls.ckptLog ++ [CkptEvent.checkpoint]
      let rt := runTx env evm ms0 best origin
      match rt.2 with
      | some gasUsed =>
        if ls.blockGasLeft ≥ gasUsed then
          let log1 := log0 ++ [CkptEvent.commit]
          let blockTransactions := ls.blockTransactions ++ [best]
          let blockGasLeft := ls.blockGasLeft - gasUsed
          let totalGasUsed := ls.gasUsed + gasUsed
          let numTransactions := ls.numTransactions + 1
          let pr := poolRemoveBest rt.1.pending origin
          let ms1 := { rt.1 with pending := pr.1, inProgress := best :: rt.1.inProgress }
          let hr := heapRemoveBest env ms1.priced
          let rf :=
            if pr.2 then replaceFromHeap env ms1.priced ms1.locked (poolHeap pr.1 origin)
            else (hr.1, ms1.locked, hr.2)
          let ms2 := { ms1 with priced := rf.1, locked := rf.2.1 }
          let ls' : LoopState :=
            ⟨ms2, blockGasLeft, numTransactions, totalGasUsed, blockTransactions,
              log1, rf.2.2⟩
          if blockGasLeft ≤ TRANSACTION_GAS ∨ (numTransactions : Int) = maxTransactions then
            (ls', StepResult.breakLoop)
          else
            (ls', StepResult.continueLoop)
        else
          let log1 := log0 ++ [CkptEvent.revert]
          let hr := heapRemoveBest env rt.1.priced
          let ms1 := { rt.1 with priced := hr.1, locked := lockSet rt.1.locked best false }
          (⟨ms1, ls.blockGasLeft, ls.numTransactions, ls.gasUsed,
              ls.blockTransactions, log1, hr.2⟩,
            StepResult.continueLoop)
      | none =>
        let log1 := log0 ++ [CkptEvent.revert]
        (⟨rt.1, ls.blockGasLeft, ls.numTransactions, ls.gasUsed,
            ls.blockTransactions, log1, ls.keepMining⟩,
          StepResult.continueLoop)

/-- The selection loop, fuel-bounded.  The boolean reports whether the loop
reached its own exit (`true`) rather than exhausting fuel (`false`). -/
def mineLoop (env : Env) (evm : Evm) (maxTransactions : Int) :
    Nat → LoopState → LoopState × Bool
  | 0, ls => (ls, false)
  | fuel + 1, ls =>
    let s := mineStep env evm maxTransactions ls
    match s.2 with
    | StepResult.continueLoop => mineLoop env evm maxTransactions fuel s.1
    | StepResult.breakLoop => (s.1, true)
    | StepResult.exitLoop => (s.1, true)

/-- The emitted `blockData` (tries, bloom and timestamp elided). -/
structure BlockData where
  blockTransactions : List Nat
  gasUsed : Nat
deriving Repr, DecidableEq

/-- Result of `#mineTxs` / `#mine`: final miner state, the `block` events
emitted (in order), the returned transaction list, the state-manager call log
and a completeness flag (false when fuel ran out). -/
structure MineTxsOut where
  st : MinerState
  blocks : List BlockData
  transactions : List Nat
  log : List CkptEvent
  completed : Bool

/-- `#mineTxs` (lines 153-341), the outer `do ... while (keepMining)` loop,
fuel-bounded on its iterations (`outerFuel`) with `innerFuel` for each
selection loop.  When `maxTransactions` is 0: checkpoint, commit, emit an
empty block, reset and return.  Otherwise: block-level checkpoint, run the
selection loop, commit, emit the block; then either reset and stop
(`onlyOneBlock`), or zero `#currentlyExecutingPrice`, absorb arrivals with
`#updatePricedHeap` and re-iterate with a fresh block when the priced heap is
non-empty (resetting when it is empty), subject to the `keepMining` test.
(`legacyInstamine` only decides whether the `block` emit is awaited and is
elided.) -/
def mineTxsGo (env : Env) (evm : Evm) (blockGasLimit : Nat)
    (instamine onlyOneBlock : Bool) (innerFuel : Nat) :
    Nat → Int → MinerState → List BlockData → List CkptEvent → MineTxsOut
  | 0, _, st, blocks, log => ⟨st, blocks, [], log, false⟩
  | outerFuel + 1, maxTransactions, st, blocks, log =>
    let st0 := { st with isBusy := true }
    if maxTransactions = 0 then
      let log1 := log ++ [CkptEvent.checkpoint, CkptEvent.commit]
      let blocks1 := blocks ++ [⟨[], 0⟩]
      ⟨reset st0, blocks1, [], log1, true⟩
    else
      let log1 := log ++ [CkptEvent.checkpoint]
      let lr := mineLoop env evm maxTransactions innerFuel
        ⟨st0, blockGasLimit, 0, 0, [], log1, false⟩
      let ls := lr.1
      let log2 := ls.ckptLog ++ [CkptEvent.commit]
      let blocks1 := blocks ++ [⟨ls.blockTransactions, ls.gasUsed⟩]
      let st1 := ls.ms
      if onlyOneBlock then
        ⟨reset { st1 with currentlyExecutingPrice := 0 }, blocks1,
          ls.blockTransactions, log2, lr.2⟩
      else
        let st2 := updatePricedHeap env { st1 with currentlyExecutingPrice := 0 }
        if st2.priced.length ≠ 0 then
          if ls.keepMining then
            let r := mineTxsGo env evm blockGasLimit instamine onlyOneBlock innerFuel
              outerFuel (if instamine then 1 else -1) st2 blocks1 log2
            ⟨r.st, r.blocks, r.transactions, r.log, lr.2 && r.completed⟩
          else
            ⟨st2, blocks1, ls.blockTransactions, log2, lr.2⟩
        else
          let st3 := reset st2
          if ls.keepMining then
            let r := mineTxsGo env evm blockGasLimit instamine onlyOneBlock innerFuel
              outerFuel maxTransactions st3 blocks1 log2
            ⟨r.st, r.blocks, r.transactions, r.log, lr.2 && r.completed⟩
          else
            ⟨st3, blocks1, ls.blockTransactions, log2, lr.2⟩

/-- `#mineTxs` from a clean call: no blocks emitted yet, empty call log. -/
def mineTxs (env : Env) (evm : Evm) (blockGasLimit : Nat)
    (instamine onlyOneBlock : Bool) (outerFuel innerFuel : Nat)
    (maxTransactions : Int) (st : MinerState) : MineTxsOut :=
  mineTxsGo env evm blockGasLimit instamine onlyOneBlock innerFuel
    outerFuel maxTransactions st [] []

/-- `#mine` (lines 139-151): run `#mineTxs`; if the `#pending` flag was
raised and not `onlyOneBlock`, re-seed the heap, clear the flag and recurse
on a fresh block with `maxTransactions` 1 under instamine (unlimited
otherwise); return the first run's transactions. -/
def mineInner (env : Env) (evm : Evm) (blockGasLimit : Nat) (instamine : Bool)
    (outerFuel innerFuel : Nat) :
    Nat → Int → Bool → MinerState → MineTxsOut
  | 0, _, _, st => ⟨st, [], [], [], false⟩
  | reFuel + 1, maxTransactions, onlyOneBlock, st =>
    let r := mineTxs env evm blockGasLimit instamine onlyOneBlock outerFuel innerFuel
      maxTransactions st
    if !onlyOneBlock && r.st.pendingFlag then
      let st1 := setPricedHeap env r.st
      let st2 := { st1 with pendingFlag := false }
      let r2 := mineInner env evm blockGasLimit instamine outerFuel innerFuel reFuel
        (if instamine then 1 else -1) false st2
      ⟨r2.st, r.blocks ++ r2.blocks, r.transactions, r.log ++ r2.log,
        r.completed && r2.completed⟩
    else
      r

/-- Result of the public `mine`: the returned value (`none` models returning
`undefined` from the busy path) together with the observable effects. -/
structure MineOut where
  result : Option (List Nat)
  st : MinerState
  blocks : List BlockData
  log : List CkptEvent
  completed : Bool

/-- The public `mine(block, maxTransactions = -1, onlyOneBlock = false)`
(lines 118-137), modelling the un-paused path (the pause/resume await is a
concurrency construct with no effect on the verified properties).  While
`#isBusy`: raise the `#pending` flag, absorb arrivals with
`#updatePricedHeap` and return `undefined` — the selection loop is not
entered.  Otherwise seed the priced heap and run `#mine`. -/
def mine (env : Env) (evm : Evm) (blockGasLimit : Nat) (instamine : Bool)
    (outerFuel innerFuel reFuel : Nat) (maxTransactions : Int)
    (onlyOneBlock : Bool) (st : MinerState) : MineOut :=
  if st.isBusy then
    let st1 := updatePricedHeap env { st with pendingFlag := true }
    ⟨none, st1, [], [], true⟩
  else
    let st1 := setPricedHeap env st
    let r := mineInner env evm blockGasLimit instamine outerFuel innerFuel reFuel
      maxTransactions onlyOneBlock st1
    ⟨some r.transactions, r.st, r.blocks, r.log, r.completed⟩

/-! ## Heap lemmas -/

theorem pickMax_cases (env : Env) (b y : Nat) : pickMax env b y = b ∨ pickMax env b y = y := by
  unfold pickMax
  split
  · exact Or.inr rfl
  · exact Or.inl rfl

theorem le_pickMax_left (env : Env) (b y : Nat) :
    (env b).gasPrice ≤ (env (pickMax env b y)).gasPrice := by
  unfold pickMax
  split
  · exact Nat.le_of_lt (by assumption)
  · exact Nat.le_refl _

theorem le_pickMax_right (env : Env) (b y : Nat) :
    (env y).gasPrice ≤ (env (pickMax env b y)).gasPrice := by
  unfold pickMax
  split
  · exact Nat.le_refl _
  · exact Nat.le_of_not_lt (by assumption)

theorem foldl_pickMax_mem (env : Env) :
    ∀ (xs : List Nat) (x : Nat), xs.foldl (pickMax env) x ∈ x :: xs := by
  intro xs
  induction xs with
  | nil => intro x; simp
  | cons y ys ih =>
    intro x
    have h := ih (pickMax env x y)
    rcases pickMax_cases env x y with h1 | h1 <;>
      simp only [List.foldl_cons] <;> rw [h1] at h ⊢ <;>
      rcases List.mem_cons.mp h with h2 | h2 <;> simp [h2]

theorem foldl_pickMax_le (env : Env) :
    ∀ (xs : List Nat) (x t : Nat), t ∈ x :: xs →
      (env t).gasPrice ≤ (env (xs.foldl (pickMax env) x)).gasPrice := by
  intro xs
  induction xs with
  | nil =>
    intro x t ht
    simp at ht
    subst ht
    simp
  | cons y ys ih =>
    intro x t ht
    simp only [List.foldl_cons]
    rcases List.mem_cons.mp ht with h1 | h1
    · subst h1
      exact Nat.le_trans (le_pickMax_left env t y) (ih (pickMax env t y) _ (by simp))
    rcases List.mem_cons.mp h1 with h2 | h2
    · subst h2
      exact Nat.le_trans (le_pickMax_right env x t) (ih (pickMax env x t) _ (by simp))
    · exact ih (pickMax env x y) t (by simp [h2])

theorem heapPeek_mem (env : Env) (l : List Nat) (b : Nat)
    (h : heapPeek env l = some b) : b ∈ l := by
  cases l with
  | nil => simp [heapPeek] at h
  | cons x xs =>
    simp only [heapPeek, Option.some.injEq] at h
    subst h
    exact foldl_pickMax_mem env xs x

theorem heapPeek_le (env : Env) (l : List Nat) (b : Nat)
    (h : heapPeek env l = some b) :
    ∀ t ∈ l, (env t).gasPrice ≤ (env b).gasPrice := by
  cases l with
  | nil => simp
  | cons x xs =>
    simp only [heapPeek, Option.some.injEq] at h
    subst h
    intro t ht
    exact foldl_pickMax_le env xs x t ht

theorem heapPeek_eq_none (env : Env) (l : List Nat) :
    heapPeek env l = none ↔ l = [] := by
  cases l <;> simp [heapPeek]

theorem heapRemoveBest_of_peek (env : Env) (l : List Nat) (b : Nat)
    (h : heapPeek env l = some b) :
    (heapRemoveBest env l).1 = l.erase b := by
  simp [heapRemoveBest, h]

theorem heapReplaceBest_of_peek (env : Env) (l : List Nat) (b x : Nat)
    (h : heapPeek env l = some b) :
    heapReplaceBest env l x = x :: l.erase b := by
  simp [heapReplaceBest, h]

/-! ## Pool lemmas -/

theorem poolLookup_mem : ∀ (p : List (String × List Nat)) (o : String) (l : List Nat),
    poolLookup p o = some l → (o, l) ∈ p := by
  intro p
  induction p with
  | nil => intro o l h; simp [poolLookup] at h
  | cons e rest ih =>
    intro o l h
    obtain ⟨k, v⟩ := e
    simp only [poolLookup] at h
    split at h
    · rename_i hk
      subst hk
      simp at h
      subst h
      simp
    · exact List.mem_cons_of_mem _ (ih o l h)

theorem mem_poolLookup : ∀ (p : List (String × List Nat)) (o : String) (l : List Nat),
    (o, l) ∈ p → (p.map Prod.fst).Nodup → poolLookup p o = some l := by
  intro p
  induction p with
  | nil => intro o l h; simp at h
  | cons e rest ih =>
    intro o l h hnd
    obtain ⟨k, v⟩ := e
    simp only [List.map_cons, List.nodup_cons] at hnd
    rcases List.mem_cons.mp h with h1 | h1
    · simp at h1
      obtain ⟨h1, h2⟩ := h1
      subst h1; subst h2
      simp [poolLookup]
    · have hne : k ≠ o := by
        intro hk
        subst hk
        exact hnd.1 (List.mem_map.mpr ⟨(k, l), h1, rfl⟩)
      simp only [poolLookup, if_neg hne]
      exact ih o l h1 hnd.2

theorem poolLookup_poolSet_self :
    ∀ (p : List (String × List Nat)) (o : String) (l v : List Nat),
      poolLookup p o = some l → poolLookup (poolSet p o v) o = some v := by
  intro p
  induction p with
  | nil => intro o l v h; simp [poolLookup] at h
  | cons e rest ih =>
    intro o l v h
    obtain ⟨k, v'⟩ := e
    simp only [poolLookup, poolSet] at h ⊢
    split at h
    · rename_i hk
      simp [poolSet, hk, poolLookup]
    · rename_i hk
      simp only [poolSet, if_neg hk, poolLookup, if_neg hk]
      exact ih o l v h

theorem poolLookup_poolSet_ne :
    ∀ (p : List (String × List Nat)) (o k : String) (v : List Nat), k ≠ o →
      poolLookup (poolSet p o v) k = poolLookup p k := by
  intro p
  induction p with
  | nil => intro o k v _; simp [poolSet]
  | cons e rest ih =>
    intro o k v hne
    obtain ⟨k', v'⟩ := e
    simp only [poolSet]
    split
    · rename_i hk
      subst hk
      have hne' : ¬ (k' = k) := fun h => hne (h.symm)
      simp [poolLookup, hne']
    · simp only [poolLookup]
      split
      · rfl
      · exact ih o k v hne

theorem poolSet_map_fst :
    ∀ (p : List (String × List Nat)) (o : String) (v : List Nat),
      (poolSet p o v).map Prod.fst = p.map Prod.fst := by
  intro p
  induction p with
  | nil => intro o v; simp [poolSet]
  | cons e rest ih =>
    intro o v
    obtain ⟨k, v'⟩ := e
    simp only [poolSet]
    split <;> simp [ih]

theorem mem_poolSet :
    ∀ (p : List (String × List Nat)) (o : String) (v : List Nat) (e : String × List Nat),
      e ∈ poolSet p o v → e ∈ p ∨ ∃ l, poolLookup p o = some l ∧ e = (o, v) := by
  intro p
  induction p with
  | nil => intro o v e h; simp [poolSet] at h
  | cons hd rest ih =>
    intro o v e h
    obtain ⟨k, v'⟩ := hd
    simp only [poolSet] at h
    split at h
    · rename_i hk
      subst hk
      rcases List.mem_cons.mp h with h1 | h1
      · subst h1
        exact Or.inr ⟨v', by simp [poolLookup], rfl⟩
      · exact Or.inl (List.mem_cons_of_mem _ h1)
    · rename_i hk
      rcases List.mem_cons.mp h with h1 | h1
      · subst h1; exact Or.inl (List.mem_cons_self _ _)
      · rcases ih o v e h1 with h2 | ⟨l, h2, h3⟩
        · exact Or.inl (List.mem_cons_of_mem _ h2)
        · exact Or.inr ⟨l, by simp [poolLookup, if_neg hk, h2], h3⟩

/-! ## Pool well-formedness

The transaction pool guarantees (spec §3): the `pending` map keys are
distinct origins, every transaction in origin `o`'s heap has `tx.from = o`,
and no transaction appears twice in a heap. -/

def PoolWF (env : Env) (p : List (String × List Nat)) : Prop :=
  (p.map Prod.fst).Nodup ∧ ∀ e ∈ p, (∀ t ∈ e.2, (env t).fromAddr = e.1) ∧ e.2.Nodup

instance (env : Env) (p : List (String × List Nat)) : Decidable (PoolWF env p) := by
  unfold PoolWF
  infer_instance

theorem poolWF_lookup (env : Env) (p : List (String × List Nat)) (o : String)
    (l : List Nat) (hwf : PoolWF env p) (h : poolLookup p o = some l) :
    (∀ t ∈ l, (env t).fromAddr = o) ∧ l.Nodup :=
  hwf.2 (o, l) (poolLookup_mem p o l h)

theorem poolWF_poolSet_tail (env : Env) (p : List (String × List Nat)) (o : String)
    (l : List Nat) (hwf : PoolWF env p) (h : poolLookup p o = some l) :
    PoolWF env (poolSet p o l.tail) := by
  constructor
  · rw [poolSet_map_fst]
    exact hwf.1
  · intro e he
    rcases mem_poolSet p o l.tail e he with h1 | ⟨l', _, h2⟩
    · exact hwf.2 e h1
    · subst h2
      have hl := poolWF_lookup env p o l hwf h
      exact ⟨fun t ht => hl.1 t (List.mem_of_mem_tail ht), hl.2.sublist (List.tail_sublist l)⟩

theorem poolPeek_eq_head (p : List (String × List Nat)) (o : String) :
    poolPeek p o = (poolHeap p o).head? := by
  unfold poolPeek poolHeap
  cases poolLookup p o <;> simp

theorem poolPeek_poolSet_ne (p : List (String × List Nat)) (o k : String)
    (v : List Nat) (hne : k ≠ o) : poolPeek (poolSet p o v) k = poolPeek p k := by
  unfold poolPeek
  rw [poolLookup_poolSet_ne p o k v hne]

/-! ## Origin-set lemmas -/

theorem mem_originInsert_self (o : String) (l : List String) : o ∈ originInsert o l := by
  unfold originInsert
  split
  · assumption
  · exact List.mem_cons_self _ _

theorem mem_originInsert_of_mem (o x : String) (l : List String) (h : x ∈ l) :
    x ∈ originInsert o l := by
  unfold originInsert
  split
  · exact h
  · exact List.mem_cons_of_mem _ h

/-! ## The miner's structural invariant

`MinerInv` collects the miner's data-structure invariants that are inductive
over its operations (given a well-formed pool): every priced transaction's
origin is in the origin set, the priced heap holds at most one transaction
per origin, every priced transaction is locked, every priced transaction is
the head of its origin's pool heap, the priced heap has no duplicates, and
the pool stays well-formed. -/

structure MinerInv (env : Env) (st : MinerState) : Prop where
  originsSup : ∀ t ∈ st.priced, (env t).fromAddr ∈ st.origins
  onePerOrigin : ∀ t ∈ st.priced, ∀ u ∈ st.priced,
    (env t).fromAddr = (env u).fromAddr → t = u
  allLocked : ∀ t ∈ st.priced, st.locked t = true
  headOfPool : ∀ t ∈ st.priced, poolPeek st.pending ((env t).fromAddr) = some t
  pricedNodup : st.priced.Nodup
  poolWF : PoolWF env st.pending

theorem minerInv_of_fields (env : Env) (s s' : MinerState)
    (h1 : s'.origins = s.origins) (h2 : s'.priced = s.priced)
    (h3 : s'.locked = s.locked) (h4 : s'.pending = s.pending)
    (hinv : MinerInv env s) : MinerInv env s' := by
  constructor
  · rw [h1, h2]; exact hinv.originsSup
  · rw [h2]; exact hinv.onePerOrigin
  · rw [h2, h3]; exact hinv.allLocked
  · rw [h2, h4]; exact hinv.headOfPool
  · rw [h2]; exact hinv.pricedNodup
  · rw [h4]; exact hinv.poolWF

theorem minerInv_init (env : Env) (pending : List (String × List Nat))
    (hwf : PoolWF env pending) : MinerInv env (initState pending) := by
  constructor <;> simp [initState]
  exact hwf

theorem minerInv_reset (env : Env) (st : MinerState) (hinv : MinerInv env st) :
    MinerInv env (reset st) := by
  constructor <;> simp [reset]
  exact hinv.poolWF

/-- Pushing an unlocked pool head preserves the structural invariant (the
common core of `seedStep` and `updateStep`). -/
theorem minerInv_push (env : Env) (s : MinerState) (o : String) (l : List Nat)
    (next : Nat) (hinv : MinerInv env s) (hmem : (o, l) ∈ s.pending)
    (hhead : l.head? = some next) (hunlocked : s.locked next = false) :
    MinerInv env
      { s with
        origins := originInsert (env next).fromAddr s.origins
        priced := next :: s.priced
        locked := lockSet s.locked next true } := by
  have hnext_l : next ∈ l := List.mem_of_mem_head? hhead
  have hfrom : (env next).fromAddr = o := (hinv.poolWF.2 (o, l) hmem).1 next hnext_l
  have hlook : poolLookup s.pending o = some l := mem_poolLookup _ o l hmem hinv.poolWF.1
  have hpeek : poolPeek s.pending o = some next := by
    unfold poolPeek
    rw [hlook]
    simpa using hhead
  have hfresh : next ∉ s.priced := by
    intro hc
    rw [hinv.allLocked next hc] at hunlocked
    exact absurd hunlocked (by decide)
  have hnoSame : ∀ t ∈ s.priced, (env t).fromAddr ≠ (env next).fromAddr := by
    intro t ht hc
    have := hinv.headOfPool t ht
    rw [hc, hfrom, hpeek] at this
    have : next = t := by simpa using this
    subst this
    exact hfresh ht
  constructor
  · intro t ht
    rcases List.mem_cons.mp ht with h1 | h1
    · subst h1
      exact mem_originInsert_self _ _
    · exact mem_originInsert_of_mem _ _ _ (hinv.originsSup t h1)
  · intro t ht u hu heq
    rcases List.mem_cons.mp ht with h1 | h1 <;> rcases List.mem_cons.mp hu with h2 | h2
    · subst h1; subst h2; rfl
    · subst h1
      exact absurd heq.symm (hnoSame u h2)
    · subst h2
      exact absurd heq (hnoSame t h1)
    · exact hinv.onePerOrigin t h1 u h2 heq
  · intro t ht
    rcases List.mem_cons.mp ht with h1 | h1
    · subst h1
      simp [lockSet]
    · have hne : t ≠ next := fun hc => hfresh (hc ▸ h1)
      simp only [lockSet, if_neg hne]
      exact hinv.allLocked t h1
  · intro t ht
    rcases List.mem_cons.mp ht with h1 | h1
    · subst h1
      show poolPeek s.pending (env t).fromAddr = some t
      rw [hfrom]
      exact hpeek
    · exact hinv.headOfPool t h1
  · exact List.nodup_cons.mpr ⟨hfresh, hinv.pricedNodup⟩
  · exact hinv.poolWF

theorem seedStep_pending (env : Env) (s : MinerState) (e : String × List Nat) :
    (seedStep env s e).pending = s.pending := by
  unfold seedStep
  split
  · rfl
  · split <;> rfl

theorem updateStep_pending (env : Env) (s : MinerState) (e : String × List Nat) :
    (updateStep env s e).pending = s.pending := by
  unfold updateStep
  split
  · rfl
  · split
    · rfl
    · split
      · rfl
      · split <;> rfl

theorem minerInv_seedStep (env : Env) (s : MinerState) (e : String × List Nat)
    (hinv : MinerInv env s) (hmem : e ∈ s.pending) :
    MinerInv env (seedStep env s e) := by
  unfold seedStep
  split
  · exact hinv
  · rename_i next hh
    split
    · exact hinv
    · rename_i hlocked
      exact minerInv_push env s e.1 e.2 next hinv hmem hh (by simpa using hlocked)

theorem minerInv_updateStep (env : Env) (s : MinerState) (e : String × List Nat)
    (hinv : MinerInv env s) (hmem : e ∈ s.pending) :
    MinerInv env (updateStep env s e) := by
  unfold updateStep
  split
  · exact hinv
  · rename_i next hh
    split
    · exact hinv
    · rename_i hlocked
      split
      · exact hinv
      · split
        · exact hinv
        · exact minerInv_push env s e.1 e.2 next hinv hmem hh (by simpa using hlocked)

theorem minerInv_seed_fold (env : Env) :
    ∀ (entries : List (String × List Nat)) (s : MinerState), MinerInv env s →
      (∀ e ∈ entries, e ∈ s.pending) →
      MinerInv env (entries.foldl (seedStep env) s) := by
  intro entries
  induction entries with
  | nil => intro s hinv _; exact hinv
  | cons e rest ih =>
    intro s hinv hmem
    simp only [List.foldl_cons]
    refine ih (seedStep env s e) (minerInv_seedStep env s e hinv (hmem e (by simp))) ?_
    intro e' he'
    rw [seedStep_pending]
    exact hmem e' (by simp [he'])

theorem minerInv_update_fold (env : Env) :
    ∀ (entries : List (String × List Nat)) (s : MinerState), MinerInv env s →
      (∀ e ∈ entries, e ∈ s.pending) →
      MinerInv env (entries.foldl (updateStep env) s) := by
  intro entries
  induction entries with
  | nil => intro s hinv _; exact hinv
  | cons e rest ih =>
    intro s hinv hmem
    simp only [List.foldl_cons]
    refine ih (updateStep env s e) (minerInv_updateStep env s e hinv (hmem e (by simp))) ?_
    intro e' he'
    rw [updateStep_pending]
    exact hmem e' (by simp [he'])

theorem minerInv_setPricedHeap (env : Env) (st : MinerState) (hinv : MinerInv env st) :
    MinerInv env (setPricedHeap env st) :=
  minerInv_seed_fold env st.pending st hinv (fun _ he => he)

theorem minerInv_updatePricedHeap (env : Env) (st : MinerState) (hinv : MinerInv env st) :
    MinerInv env (updatePricedHeap env st) :=
  minerInv_update_fold env st.pending st hinv (fun _ he => he)

theorem ite_pair_fst {α β : Type} {c : Prop} [Decidable c] (a : α) (x y : β) :
    (if c then (a, x) else (a, y)).1 = a := by
  split <;> rfl

theorem eq_cons_of_head? {α : Type} {l : List α} {b : α} (h : l.head? = some b) :
    l = b :: l.tail := by
  cases l with
  | nil => simp at h
  | cons a as => simp at h; simp [h]

theorem poolRemoveBest_of_lookup (p : List (String × List Nat)) (o : String)
    (l : List Nat) (h : poolLookup p o = some l) :
    poolRemoveBest p o = (poolSet p o l.tail, !l.tail.isEmpty) := by
  simp [poolRemoveBest, h]

theorem poolPeek_some (p : List (String × List Nat)) (o : String) (t : Nat)
    (h : poolPeek p o = some t) :
    ∃ l, poolLookup p o = some l ∧ l.head? = some t := by
  unfold poolPeek at h
  cases hl : poolLookup p o with
  | none => rw [hl] at h; simp at h
  | some l => rw [hl] at h; exact ⟨l, rfl, by simpa using h⟩

/-- The intrinsic-gas skip path preserves the structural invariant: the best
transaction leaves the priced heap, is unlocked, and its origin is deleted. -/
theorem minerInv_skipState (env : Env) (s : MinerState) (best : Nat)
    (hinv : MinerInv env s) (hpeek : heapPeek env s.priced = some best) :
    MinerInv env
      { s with
        priced := s.priced.erase best
        locked := lockSet s.locked best false
        origins := s.origins.erase (env best).fromAddr } := by
  have hmem : best ∈ s.priced := heapPeek_mem env _ _ hpeek
  have hme : ∀ t, t ∈ s.priced.erase best → t ≠ best ∧ t ∈ s.priced := by
    intro t ht
    exact (hinv.pricedNodup.mem_erase_iff.mp ht)
  have hnoSame : ∀ t ∈ s.priced.erase best, (env t).fromAddr ≠ (env best).fromAddr := by
    intro t ht hc
    obtain ⟨hne, hmem'⟩ := hme t ht
    exact hne (hinv.onePerOrigin t hmem' best hmem hc)
  constructor
  · intro t ht
    obtain ⟨hne, hmem'⟩ := hme t ht
    exact List.mem_erase_of_ne (hnoSame t ht) |>.mpr (hinv.originsSup t hmem')
  · intro t ht u hu heq
    exact hinv.onePerOrigin t (hme t ht).2 u (hme u hu).2 heq
  · intro t ht
    obtain ⟨hne, hmem'⟩ := hme t ht
    simp only [lockSet, if_neg hne]
    exact hinv.allLocked t hmem'
  · intro t ht
    exact hinv.headOfPool t (hme t ht).2
  · exact hinv.pricedNodup.erase best
  · exact hinv.poolWF

/-- The overflow path preserves the structural invariant: the best
transaction leaves the priced heap unlocked, the origin set untouched. -/
theorem minerInv_overflowState (env : Env) (s : MinerState) (best : Nat)
    (hinv : MinerInv env s) (_hpeek : heapPeek env s.priced = some best) :
    MinerInv env
      { s with
        priced := s.priced.erase best
        locked := lockSet s.locked best false } := by
  have hme : ∀ t, t ∈ s.priced.erase best → t ≠ best ∧ t ∈ s.priced := by
    intro t ht
    exact (hinv.pricedNodup.mem_erase_iff.mp ht)
  constructor
  · intro t ht
    exact hinv.originsSup t (hme t ht).2
  · intro t ht u hu heq
    exact hinv.onePerOrigin t (hme t ht).2 u (hme u hu).2 heq
  · intro t ht
    obtain ⟨hne, hmem'⟩ := hme t ht
    simp only [lockSet, if_neg hne]
    exact hinv.allLocked t hmem'
  · intro t ht
    exact hinv.headOfPool t (hme t ht).2
  · exact hinv.pricedNodup.erase best
  · exact hinv.poolWF

/-- The pool-advance performed on acceptance and on a VM throw preserves the
structural invariant: the best transaction's pool head is removed and the
priced root is either replaced by the origin's next transaction (locking it)
or removed. -/
theorem minerInv_advance (env : Env) (s : MinerState) (best : Nat) (s' : MinerState)
    (hinv : MinerInv env s) (hpeek : heapPeek env s.priced = some best)
    (horigins : s'.origins = s.origins)
    (hpending : s'.pending = (poolRemoveBest s.pending (env best).fromAddr).1)
    (hcase :
      ((poolRemoveBest s.pending (env best).fromAddr).2 = true ∧
        s'.priced = (replaceFromHeap env s.priced s.locked
          (poolHeap (poolRemoveBest s.pending (env best).fromAddr).1
            (env best).fromAddr)).1 ∧
        s'.locked = (replaceFromHeap env s.priced s.locked
          (poolHeap (poolRemoveBest s.pending (env best).fromAddr).1
            (env best).fromAddr)).2.1) ∨
      ((poolRemoveBest s.pending (env best).fromAddr).2 = false ∧
        s'.priced = (heapRemoveBest env s.priced).1 ∧
        s'.locked = s.locked)) :
    MinerInv env s' := by
  have hmem : best ∈ s.priced := heapPeek_mem env _ _ hpeek
  have hhead : poolPeek s.pending ((env best).fromAddr) = some best :=
    hinv.headOfPool best hmem
  obtain ⟨l, hlook, hl_head⟩ := poolPeek_some _ _ _ hhead
  have hl_cons : l = best :: l.tail := eq_cons_of_head? hl_head
  have hrb : poolRemoveBest s.pending ((env best).fromAddr) =
      (poolSet s.pending ((env best).fromAddr) l.tail, !l.tail.isEmpty) :=
    poolRemoveBest_of_lookup _ _ _ hlook
  have hlookup' : poolLookup s'.pending ((env best).fromAddr) = some l.tail := by
    rw [hpending, hrb]
    exact poolLookup_poolSet_self _ _ _ _ hlook
  have hpeek_ne : ∀ k, k ≠ (env best).fromAddr →
      poolPeek s'.pending k = poolPeek s.pending k := by
    intro k hk
    rw [hpending, hrb]
    exact poolPeek_poolSet_ne _ _ _ _ hk
  have hwf' : PoolWF env s'.pending := by
    rw [hpending, hrb]
    exact poolWF_poolSet_tail env _ _ _ hinv.poolWF hlook
  have hl_wf := poolWF_lookup env _ _ _ hinv.poolWF hlook
  have hme : ∀ t, t ∈ s.priced.erase best → t ≠ best ∧ t ∈ s.priced := by
    intro t ht
    exact (hinv.pricedNodup.mem_erase_iff.mp ht)
  have hnoSame : ∀ t ∈ s.priced.erase best, (env t).fromAddr ≠ (env best).fromAddr := by
    intro t ht hc
    obtain ⟨hne, hmem'⟩ := hme t ht
    exact hne (hinv.onePerOrigin t hmem' best hmem hc)
  have hheadPool' : ∀ t ∈ s.priced.erase best,
      poolPeek s'.pending ((env t).fromAddr) = some t := by
    intro t ht
    rw [hpeek_ne _ (hnoSame t ht)]
    exact hinv.headOfPool t (hme t ht).2
  rcases hcase with ⟨hmore, hpriced, hlocked⟩ | ⟨hmore, hpriced, hlocked⟩
  · -- the origin's heap still has a transaction `next`: replace the root
    rw [hrb] at hmore
    simp only at hmore
    have htail : l.tail ≠ [] := by
      intro hc
      rw [hc] at hmore
      simp at hmore
    obtain ⟨next, rest, htail_eq⟩ := List.exists_cons_of_ne_nil htail
    have hsource : poolHeap (poolRemoveBest s.pending (env best).fromAddr).1
        ((env best).fromAddr) = l.tail := by
      unfold poolHeap
      rw [← hpending, hlookup']
      rfl
    have hsrc_head : l.tail.head? = some next := by rw [htail_eq]; rfl
    rw [hsource] at hpriced hlocked
    unfold replaceFromHeap at hpriced hlocked
    rw [hsrc_head] at hpriced hlocked
    simp only at hpriced hlocked
    rw [heapReplaceBest_of_peek env _ _ _ hpeek] at hpriced
    have hnext_l : next ∈ l := by
      rw [hl_cons, htail_eq]
      simp
    have hfrom_next : (env next).fromAddr = (env best).fromAddr := hl_wf.1 next hnext_l
    have hnext_ne_best : next ≠ best := by
      intro hc
      have := hl_wf.2
      rw [hl_cons, htail_eq] at this
      simp at this
      exact this.1.1 (hc ▸ rfl)
    have hnext_fresh : next ∉ s.priced := by
      intro hc
      have := hinv.headOfPool next hc
      rw [hfrom_next, hhead] at this
      have hbn : best = next := by simpa using this
      exact hnext_ne_best hbn.symm
    have hnext_peek' : poolPeek s'.pending ((env next).fromAddr) = some next := by
      rw [hfrom_next]
      unfold poolPeek
      rw [hlookup']
      simpa using hsrc_head
    constructor
    · intro t ht
      rw [hpriced] at ht
      rw [horigins]
      rcases List.mem_cons.mp ht with h1 | h1
      · subst h1
        rw [hfrom_next]
        exact hinv.originsSup best hmem
      · exact hinv.originsSup t (hme t h1).2
    · intro t ht u hu heq
      rw [hpriced] at ht hu
      rcases List.mem_cons.mp ht with h1 | h1 <;> rcases List.mem_cons.mp hu with h2 | h2
      · subst h1; subst h2; rfl
      · subst h1
        rw [hfrom_next] at heq
        exact absurd heq.symm (hnoSame u h2)
      · subst h2
        rw [hfrom_next] at heq
        exact absurd heq (hnoSame t h1)
      · exact hinv.onePerOrigin t (hme t h1).2 u (hme u h2).2 heq
    · intro t ht
      rw [hpriced] at ht
      rw [hlocked]
      rcases List.mem_cons.mp ht with h1 | h1
      · subst h1
        simp [lockSet]
      · have hne : t ≠ next := fun hc => hnext_fresh (hc ▸ (hme t h1).2)
        simp only [lockSet, if_neg hne]
        exact hinv.allLocked t (hme t h1).2
    · intro t ht
      rw [hpriced] at ht
      rcases List.mem_cons.mp ht with h1 | h1
      · subst h1
        exact hnext_peek'
      · exact hheadPool' t h1
    · rw [hpriced]
      refine List.nodup_cons.mpr ⟨?_, hinv.pricedNodup.erase best⟩
      intro hc
      exact hnext_fresh (hme next hc).2
    · exact hwf'
  · -- the origin's heap is exhausted: remove the root without refill
    rw [heapRemoveBest_of_peek env _ _ hpeek] at hpriced
    constructor
    · intro t ht
      rw [hpriced] at ht
      rw [horigins]
      exact hinv.originsSup t (hme t ht).2
    · intro t ht u hu heq
      rw [hpriced] at ht hu
      exact hinv.onePerOrigin t (hme t ht).2 u (hme u hu).2 heq
    · intro t ht
      rw [hpriced] at ht
      rw [hlocked]
      exact hinv.allLocked t (hme t ht).2
    · intro t ht
      rw [hpriced] at ht
      exact hheadPool' t ht
    · rw [hpriced]
      exact hinv.pricedNodup.erase best
    · exact hwf'

/-! ## Path characterizations of `mineStep`

The following abbreviations name the state transformation shared by the
acceptance path and `#runTx`'s error handler (advance the pool for the
origin, then refill or remove the priced root), and each lemma rewrites
`mineStep` on one control path to an explicit result. -/

/-- Advance origin `origin`'s pool heap past its head and refill the priced
root from it (locking the replacement) or remove the root. -/
def advanceState (env : Env) (s : MinerState) (origin : String) : MinerState :=
  let pr := poolRemoveBest s.pending origin
  let rf :=
    if pr.2 then replaceFromHeap env s.priced s.locked (poolHeap pr.1 origin)
    else ((heapRemoveBest env s.priced).1, s.locked, (heapRemoveBest env s.priced).2)
  { s with pending := pr.1, priced := rf.1, locked := rf.2.1 }

/-- The boolean produced by the advance (whether mining can keep going). -/
def advanceKeep (env : Env) (s : MinerState) (origin : String) : Bool :=
  let pr := poolRemoveBest s.pending origin
  if pr.2 then (replaceFromHeap env s.priced s.locked (poolHeap pr.1 origin)).2.2
  else (heapRemoveBest env s.priced).2

theorem mineStep_none (env : Env) (evm : Evm) (maxTx : Int) (ls : LoopState)
    (hpeek : heapPeek env ls.ms.priced = none) :
    mineStep env evm maxTx ls = (ls, StepResult.exitLoop) := by
  simp [mineStep, hpeek]

theorem mineStep_skip (env : Env) (evm : Evm) (maxTx : Int) (ls : LoopState)
    (best : Nat) (hpeek : heapPeek env ls.ms.priced = some best)
    (hgas : (env best).intrinsicGas > ls.blockGasLeft) :
    mineStep env evm maxTx ls =
      ({ ls with
          ms := { ls.ms with
            priced := ls.ms.priced.erase best
            locked := lockSet ls.ms.locked best false
            origins := ls.ms.origins.erase (env best).fromAddr } },
        StepResult.continueLoop) := by
  simp [mineStep, hpeek, hgas, heapRemoveBest_of_peek env _ _ hpeek]

theorem mineStep_throw (env : Env) (evm : Evm) (maxTx : Int) (ls : LoopState)
    (best : Nat) (msg : String) (hpeek : heapPeek env ls.ms.priced = some best)
    (hgas : ¬ (env best).intrinsicGas > ls.blockGasLeft)
    (hevm : evm best = Except.error msg) :
    mineStep env evm maxTx ls =
      (⟨{ advanceState env
            { ls.ms with currentlyExecutingPrice := (env best).gasPrice }
            (env best).fromAddr with
          finalizedLog := ls.ms.finalizedLog ++ [⟨best, "rejected", msg, 0⟩] },
          ls.blockGasLeft, ls.numTransactions, ls.gasUsed, ls.blockTransactions,
          ls.ckptLog ++ [CkptEvent.checkpoint, CkptEvent.revert], ls.keepMining⟩,
        StepResult.continueLoop) := by
  simp only [mineStep, hpeek, hgas, if_false, runTx, hevm, advanceState]
  by_cases hpr : (poolRemoveBest ls.ms.pending ((env best).fromAddr)).2 <;>
    simp [hpr]

theorem mineStep_overflow (env : Env) (evm : Evm) (maxTx : Int) (ls : LoopState)
    (best g : Nat) (hpeek : heapPeek env ls.ms.priced = some best)
    (hgas : ¬ (env best).intrinsicGas > ls.blockGasLeft)
    (hevm : evm best = Except.ok g) (hfits : ¬ ls.blockGasLeft ≥ g) :
    mineStep env evm maxTx ls =
      (⟨{ ls.ms with
            currentlyExecutingPrice := (env best).gasPrice
            priced := ls.ms.priced.erase best
            locked := lockSet ls.ms.locked best false },
          ls.blockGasLeft, ls.numTransactions, ls.gasUsed, ls.blockTransactions,
          ls.ckptLog ++ [CkptEvent.checkpoint, CkptEvent.revert],
          (heapRemoveBest env ls.ms.priced).2⟩,
        StepResult.continueLoop) := by
  simp [mineStep, hpeek, hgas, runTx, hevm, hfits,
    heapRemoveBest_of_peek env _ _ hpeek]

theorem mineStep_accept (env : Env) (evm : Evm) (maxTx : Int) (ls : LoopState)
    (best g : Nat) (hpeek : heapPeek env ls.ms.priced = some best)
    (hgas : ¬ (env best).intrinsicGas > ls.blockGasLeft)
    (hevm : evm best = Except.ok g) (hfits : ls.blockGasLeft ≥ g) :
    mineStep env evm maxTx ls =
      (⟨advanceState env
          { ls.ms with
            currentlyExecutingPrice := (env best).gasPrice
            inProgress := best :: ls.ms.inProgress }
          (env best).fromAddr,
          ls.blockGasLeft - g, ls.numTransactions + 1, ls.gasUsed + g,
          ls.blockTransactions ++ [best],
          ls.ckptLog ++ [CkptEvent.checkpoint, CkptEvent.commit],
          advanceKeep env
            { ls.ms with
              currentlyExecutingPrice := (env best).gasPrice
              inProgress := best :: ls.ms.inProgress }
            (env best).fromAddr⟩,
        if ls.blockGasLeft - g ≤ TRANSACTION_GAS ∨
            ((ls.numTransactions + 1 : Nat) : Int) = maxTx
        then StepResult.breakLoop else StepResult.continueLoop) := by
  simp only [mineStep, hpeek, hgas, if_false, runTx, hevm, if_pos hfits,
    advanceState, advanceKeep]
  by_cases hpr : (poolRemoveBest ls.ms.pending ((env best).fromAddr)).2 <;>
    simp [hpr] <;> split <;> rename_i hC <;> simp [hC]

theorem minerInv_advanceState (env : Env) (s : MinerState) (best : Nat)
    (hinv : MinerInv env s) (hpeek : heapPeek env s.priced = some best) :
    MinerInv env (advanceState env s ((env best).fromAddr)) := by
  apply minerInv_advance env s best _ hinv hpeek
  · simp [advanceState]
  · simp [advanceState]
  · by_cases hpr : (poolRemoveBest s.pending ((env best).fromAddr)).2
    · exact Or.inl ⟨hpr, by simp [advanceState, hpr], by simp [advanceState, hpr]⟩
    · refine Or.inr ⟨by simpa using hpr, by simp [advanceState, hpr], by simp [advanceState, hpr]⟩

/-- One selection-loop iteration preserves the miner's structural invariant. -/
theorem minerInv_mineStep (env : Env) (evm : Evm) (maxTx : Int) (ls : LoopState)
    (hinv : MinerInv env ls.ms) :
    MinerInv env (mineStep env evm maxTx ls).1.ms := by
  cases hpeek : heapPeek env ls.ms.priced with
  | none => rw [mineStep_none env evm maxTx ls hpeek]; exact hinv
  | some best =>
    by_cases hgas : (env best).intrinsicGas > ls.blockGasLeft
    · rw [mineStep_skip env evm maxTx ls best hpeek hgas]
      exact minerInv_skipState env ls.ms best hinv hpeek
    · cases hevm : evm best with
      | error msg =>
        rw [mineStep_throw env evm maxTx ls best msg hpeek hgas hevm]
        refine minerInv_of_fields env
          (advanceState env
            { ls.ms with currentlyExecutingPrice := (env best).gasPrice }
            ((env best).fromAddr)) _ rfl rfl rfl rfl ?_
        refine minerInv_advanceState env _ best ?_ hpeek
        exact minerInv_of_fields env ls.ms _ rfl rfl rfl rfl hinv
      | ok g =>
        by_cases hfits : ls.blockGasLeft ≥ g
        · rw [mineStep_accept env evm maxTx ls best g hpeek hgas hevm hfits]
          show MinerInv env (advanceState env
            { ls.ms with
              currentlyExecutingPrice := (env best).gasPrice
              inProgress := best :: ls.ms.inProgress } ((env best).fromAddr))
          refine minerInv_advanceState env _ best ?_ hpeek
          exact minerInv_of_fields env ls.ms _ rfl rfl rfl rfl hinv
        · rw [mineStep_overflow env evm maxTx ls best g hpeek hgas hevm hfits]
          exact minerInv_of_fields env
            { ls.ms with
              priced := ls.ms.priced.erase best
              locked := lockSet ls.ms.locked best false }
            _ rfl rfl rfl rfl
            (minerInv_overflowState env ls.ms best hinv hpeek)

/-- The states reachable through the miner's own operations, starting from a
freshly-constructed miner over a well-formed pool: the seed phase
(`#setPricedHeap`), selection-loop iterations, `#updatePricedHeap` and
`#reset`, each applied at any point. -/
inductive Reachable (env : Env) : MinerState → Prop where
  | init : ∀ pending, PoolWF env pending → Reachable env (initState pending)
  | seed : ∀ st, Reachable env st → Reachable env (setPricedHeap env st)
  | update : ∀ st, Reachable env st → Reachable env (updatePricedHeap env st)
  | resetStep : ∀ st, Reachable env st → Reachable env (reset st)
  | loopStep : ∀ st (evm : Evm) (maxTx : Int) (gl nt gu : Nat) (btxs : List Nat)
      (log : List CkptEvent) (km : Bool), Reachable env st →
      Reachable env (mineStep env evm maxTx ⟨st, gl, nt, gu, btxs, log, km⟩).1.ms

/-- Every reachable state satisfies the miner's structural invariant. -/
theorem reachable_inv (env : Env) (st : MinerState) (h : Reachable env st) :
    MinerInv env st := by
  induction h with
  | init p hwf => exact minerInv_init env p hwf
  | seed st _ ih => exact minerInv_setPricedHeap env st ih
  | update st _ ih => exact minerInv_updatePricedHeap env st ih
  | resetStep st _ ih => exact minerInv_reset env st ih
  | loopStep st evm maxTx gl nt gu btxs log km _ ih =>
    exact minerInv_mineStep env evm maxTx ⟨st, gl, nt, gu, btxs, log, km⟩ ih

/-! ## Claim C1 -/

/-- The invariant asserted by the spec (§3 invariant 1, §8): the origin set
exactly equals the set of `tx.from` values of the transactions in the priced
heap. -/
def originsMatch (env : Env) (st : MinerState) : Prop :=
  ∀ o, o ∈ st.origins ↔ ∃ t, t ∈ st.priced ∧ (env t).fromAddr = o

/-- A one-origin, one-transaction scenario: origin `"a"` has a single
21000-gas transaction that fits the 30000-gas block. -/
def exEnv : Env := fun _ => ⟨"a", 10, 21000⟩

def exPending : List (String × List Nat) := [("a", [0])]

def exEvm : Evm := fun _ => Except.ok 21000

/-- The state after the seed phase of `mine` on the scenario. -/
def exSeeded : MinerState := setPricedHeap exEnv (initState exPending)

/-- The state after the selection loop accepts the only transaction: its
origin's pool heap is exhausted, so the loop runs `priced.removeBest()`
without `origins.delete(origin)`. -/
def exState : MinerState :=
  (mineStep exEnv exEvm (-1) ⟨exSeeded, 30000, 0, 0, [], [], false⟩).1.ms

/-- C1 counterexample: the claimed two-sided invariant is false.  After the
selection loop accepts the last pooled transaction of origin `"a"` (a
reachable state, sitting at the `await Promise.all`/`commit` suspension
points), `"a"` is still in `origins` while the priced heap is empty: the
acceptance path (`miner.ts` lines 252, 273, 286), the overflow path (line
299) and the VM-throw path (line 355) all remove the best transaction
without deleting its origin — only the intrinsic-gas skip path (line 214)
deletes it. -/
theorem c1_origins_iff_counterexample :
    Reachable exEnv exState ∧ "a" ∈ exState.origins ∧ exState.priced = [] ∧
      ¬ originsMatch exEnv exState := by
  refine ⟨?_, by decide, by decide, ?_⟩
  · exact Reachable.loopStep exSeeded exEvm (-1) 30000 0 0 [] [] false
      (Reachable.seed _ (Reachable.init exPending (by decide)))
  · intro h
    obtain ⟨t, ht, _⟩ := (h "a").mp (by decide)
    have hempty : exState.priced = [] := by decide
    rw [hempty] at ht
    exact absurd ht (List.not_mem_nil t)

/-- C1 (amended): in every state reachable by the miner's operations (seed,
selection-loop step, `#updatePricedHeap`, `#reset`) over a well-formed pool,
the origin set contains the `from` address of every transaction in the
priced heap.  The converse inclusion of the claim fails (see the
counterexample): an origin whose accepted, overflowing or VM-rejected
transaction left the priced heap stays in `origins` until `#reset`. -/
theorem c1_origins_superset (env : Env) (st : MinerState) (h : Reachable env st) :
    ∀ t ∈ st.priced, (env t).fromAddr ∈ st.origins :=
  (reachable_inv env st h).originsSup

theorem c1_origins_superset_witness : (exEnv 0).fromAddr ∈ exSeeded.origins :=
  c1_origins_superset exEnv exSeeded
    (Reachable.seed _ (Reachable.init exPending (by decide))) 0 (by decide)

/-! ## Claims C4, C5, C6, C9 -/

/-- C4: when the best transaction's intrinsic gas exceeds the remaining block
gas, the selection-loop iteration removes it from the priced heap, unlocks
it, deletes its origin, and continues — with no checkpoint, no change to the
block, no change to the pool's per-origin heap, and without consulting the
EVM (the step is identical for any EVM oracle). -/
theorem c4_intrinsic_skip (env : Env) (evm evm' : Evm) (maxTx : Int) (ls : LoopState)
    (best : Nat) (hpeek : heapPeek env ls.ms.priced = some best)
    (hgas : (env best).intrinsicGas > ls.blockGasLeft) :
    (mineStep env evm maxTx ls).2 = StepResult.continueLoop ∧
    (mineStep env evm maxTx ls).1.ms.priced = ls.ms.priced.erase best ∧
    (mineStep env evm maxTx ls).1.ms.locked best = false ∧
    (mineStep env evm maxTx ls).1.ms.origins =
      ls.ms.origins.erase ((env best).fromAddr) ∧
    (mineStep env evm maxTx ls).1.ckptLog = ls.ckptLog ∧
    (mineStep env evm maxTx ls).1.blockTransactions = ls.blockTransactions ∧
    (mineStep env evm maxTx ls).1.ms.pending = ls.ms.pending ∧
    mineStep env evm' maxTx ls = mineStep env evm maxTx ls := by
  rw [mineStep_skip env evm maxTx ls best hpeek hgas,
    mineStep_skip env evm' maxTx ls best hpeek hgas]
  exact ⟨rfl, rfl, by simp [lockSet], rfl, rfl, rfl, rfl, rfl⟩

theorem c4_intrinsic_skip_witness :
    (mineStep exEnv exEvm (-1) ⟨exSeeded, 100, 0, 0, [], [], false⟩).1.ms.locked 0
      = false :=
  (c4_intrinsic_skip exEnv exEvm exEvm (-1) ⟨exSeeded, 100, 0, 0, [], [], false⟩ 0
    (by decide) (by decide)).2.2.1

/-- C5: when the EVM result's `gasUsed` exceeds the remaining block gas, the
iteration reverts the transaction-level checkpoint, unlocks the transaction,
removes it from the priced heap without refilling from its origin, does not
append it to the block, and leaves the pool untouched — in particular the
transaction stays at the head of its origin's per-origin heap for a future
block. -/
theorem c5_overflow (env : Env) (evm : Evm) (maxTx : Int) (ls : LoopState)
    (best g : Nat) (hpeek : heapPeek env ls.ms.priced = some best)
    (hgas : ¬ (env best).intrinsicGas > ls.blockGasLeft)
    (hevm : evm best = Except.ok g) (hover : g > ls.blockGasLeft) :
    (mineStep env evm maxTx ls).2 = StepResult.continueLoop ∧
    (mineStep env evm maxTx ls).1.ckptLog =
      ls.ckptLog ++ [CkptEvent.checkpoint, CkptEvent.revert] ∧
    (mineStep env evm maxTx ls).1.ms.locked best = false ∧
    (mineStep env evm maxTx ls).1.ms.priced = ls.ms.priced.erase best ∧
    (mineStep env evm maxTx ls).1.blockTransactions = ls.blockTransactions ∧
    (mineStep env evm maxTx ls).1.ms.pending = ls.ms.pending ∧
    (poolPeek ls.ms.pending ((env best).fromAddr) = some best →
      poolPeek (mineStep env evm maxTx ls).1.ms.pending ((env best).fromAddr)
        = some best) := by
  have hfits : ¬ ls.blockGasLeft ≥ g := not_le.mpr hover
  rw [mineStep_overflow env evm maxTx ls best g hpeek hgas hevm hfits]
  exact ⟨rfl, rfl, by simp [lockSet], rfl, rfl, rfl, fun h => h⟩

/-- An EVM oracle whose transactions use more gas than the example block has
left. -/
def exEvmBig : Evm := fun _ => Except.ok 25000

theorem c5_overflow_witness :
    (mineStep exEnv exEvmBig (-1) ⟨exSeeded, 22000, 0, 0, [], [], false⟩).1.ms.locked 0
      = false :=
  (c5_overflow exEnv exEvmBig (-1) ⟨exSeeded, 22000, 0, 0, [], [], false⟩ 0 25000
    (by decide) (by decide) rfl (by decide)).2.2.1

/-- C6: when the EVM throws, `#runTx` returns null after removing the
transaction from its origin's pool heap, replacing the priced root with the
origin's next transaction (locking it) when one remains and removing the
root otherwise, and finalizing the transaction as "rejected" with the EVM's
message and a program-counter-0 synthetic trace; the selection loop swallows
the error, reverts the transaction-level checkpoint and continues. -/
theorem c6_vm_throw (env : Env) (evm : Evm) (st : MinerState) (tx : Nat)
    (origin msg : String) (hevm : evm tx = Except.error msg) :
    (runTx env evm st tx origin).2 = none ∧
    (runTx env evm st tx origin).1.pending = (poolRemoveBest st.pending origin).1 ∧
    ((poolRemoveBest st.pending origin).2 = true →
      ∀ next, poolPeek (poolRemoveBest st.pending origin).1 origin = some next →
        (runTx env evm st tx origin).1.priced = heapReplaceBest env st.priced next ∧
        (runTx env evm st tx origin).1.locked next = true) ∧
    ((poolRemoveBest st.pending origin).2 = false →
      (runTx env evm st tx origin).1.priced = (heapRemoveBest env st.priced).1) ∧
    (runTx env evm st tx origin).1.finalizedLog =
      st.finalizedLog ++ [⟨tx, "rejected", msg, 0⟩] ∧
    (∀ (maxTx : Int) (ls : LoopState) (best : Nat),
      heapPeek env ls.ms.priced = some best →
      ¬ (env best).intrinsicGas > ls.blockGasLeft → evm best = Except.error msg →
      (mineStep env evm maxTx ls).2 = StepResult.continueLoop ∧
      (mineStep env evm maxTx ls).1.ckptLog =
        ls.ckptLog ++ [CkptEvent.checkpoint, CkptEvent.revert]) := by
  refine ⟨by simp [runTx, hevm], ?_, ?_, ?_, ?_, ?_⟩
  · by_cases hpr : (poolRemoveBest st.pending origin).2 <;> simp [runTx, hevm, hpr]
  · intro hpr next hnext
    rw [poolPeek_eq_head] at hnext
    constructor <;> simp [runTx, hevm, hpr, replaceFromHeap, hnext, lockSet]
  · intro hpr
    simp [runTx, hevm, hpr]
  · by_cases hpr : (poolRemoveBest st.pending origin).2 <;> simp [runTx, hevm, hpr]
  · intro maxTx ls best h1 h2 h3
    rw [mineStep_throw env evm maxTx ls best msg h1 h2 h3]
    exact ⟨rfl, rfl⟩

/-- An always-throwing EVM oracle. -/
def exEvmThrow : Evm := fun _ => Except.error "out of gas"

theorem c6_vm_throw_witness :
    (runTx exEnv exEvmThrow exSeeded 0 "a").1.finalizedLog =
      [⟨0, "rejected", "out of gas", 0⟩] :=
  (c6_vm_throw exEnv exEvmThrow exSeeded 0 "a" "out of gas" rfl).2.2.2.2.1

/-- C9: the selection loop always accepts a maximal-gas-price root of the
priced heap: whenever an iteration appends transaction `b` to the block,
every transaction `t` that was in the priced heap at that moment satisfies
`t.gasPrice ≤ b.gasPrice`.  In particular, for two accepted transactions of
different origins both present when the earlier was selected, the earlier
has the greater-or-equal gas price. -/
theorem c9_priority (env : Env) (evm : Evm) (maxTx : Int) (ls : LoopState) (b t : Nat)
    (haccept : (mineStep env evm maxTx ls).1.blockTransactions =
      ls.blockTransactions ++ [b])
    (ht : t ∈ ls.ms.priced) :
    (env t).gasPrice ≤ (env b).gasPrice := by
  cases hpeek : heapPeek env ls.ms.priced with
  | none =>
    rw [mineStep_none env evm maxTx ls hpeek] at haccept
    exact absurd haccept (by simp)
  | some best =>
    by_cases hgas : (env best).intrinsicGas > ls.blockGasLeft
    · rw [mineStep_skip env evm maxTx ls best hpeek hgas] at haccept
      exact absurd haccept (by simp)
    · cases hevm : evm best with
      | error msg =>
        rw [mineStep_throw env evm maxTx ls best msg hpeek hgas hevm] at haccept
        exact absurd haccept (by simp)
      | ok g =>
        by_cases hfits : ls.blockGasLeft ≥ g
        · rw [mineStep_accept env evm maxTx ls best g hpeek hgas hevm hfits] at haccept
          have hb : best = b := by simpa using haccept
          subst hb
          exact heapPeek_le env _ _ hpeek t ht
        · rw [mineStep_overflow env evm maxTx ls best g hpeek hgas hevm hfits] at haccept
          exact absurd haccept (by simp)

theorem c9_priority_witness :
    (exEnv 0).gasPrice ≤ (exEnv 0).gasPrice :=
  c9_priority exEnv exEvm (-1) ⟨exSeeded, 30000, 0, 0, [], [], false⟩ 0 0
    (by decide) (by decide)

/-! ## Claim C7: characterizing `#updatePricedHeap` -/

/-- Case analysis for one origin of the `#updatePricedHeap` iteration:
either nothing happens (and every head, if any, fails one of the three push
conditions), or the head satisfies all three and is pushed, locked, with its
origin added. -/
theorem updateStep_eq (env : Env) (s : MinerState) (e : String × List Nat) :
    (updateStep env s e = s ∧
      (∀ t, e.2.head? = some t → s.locked t = true ∨
        s.currentlyExecutingPrice > (env t).gasPrice ∨ (env t).fromAddr ∈ s.origins)) ∨
    (∃ t, e.2.head? = some t ∧ s.locked t = false ∧
      ¬ s.currentlyExecutingPrice > (env t).gasPrice ∧ (env t).fromAddr ∉ s.origins ∧
      updateStep env s e =
        { s with
          origins := originInsert (env t).fromAddr s.origins
          priced := t :: s.priced
          locked := lockSet s.locked t true }) := by
  unfold updateStep
  split
  · rename_i hnone
    refine Or.inl ⟨rfl, ?_⟩
    intro t ht
    rw [hnone] at ht
    cases ht
  · rename_i next hsome
    have hinj : ∀ t, e.2.head? = some t → t = next := by
      intro t ht
      rw [hsome] at ht
      simpa using ht.symm
    split
    · rename_i hlocked
      refine Or.inl ⟨rfl, ?_⟩
      intro t ht
      rw [hinj t ht]
      exact Or.inl hlocked
    · rename_i hlocked
      split
      · rename_i hprice
        refine Or.inl ⟨rfl, ?_⟩
        intro t ht
        rw [hinj t ht]
        exact Or.inr (Or.inl hprice)
      · rename_i hprice
        split
        · rename_i horig
          refine Or.inl ⟨rfl, ?_⟩
          intro t ht
          rw [hinj t ht]
          exact Or.inr (Or.inr horig)
        · rename_i horig
          exact Or.inr ⟨next, hsome, by simpa using hlocked, hprice, horig, rfl⟩

theorem updateStep_fields (env : Env) (s : MinerState) (e : String × List Nat) :
    (updateStep env s e).pending = s.pending ∧
    (updateStep env s e).currentlyExecutingPrice = s.currentlyExecutingPrice ∧
    (updateStep env s e).isBusy = s.isBusy ∧
    (updateStep env s e).pendingFlag = s.pendingFlag := by
  rcases updateStep_eq env s e with ⟨heq, _⟩ | ⟨t, _, _, _, _, heq⟩ <;> rw [heq] <;>
    exact ⟨rfl, rfl, rfl, rfl⟩

theorem updateStep_mono (env : Env) (s : MinerState) (e : String × List Nat) :
    (∀ t ∈ s.priced, t ∈ (updateStep env s e).priced) ∧
    (∀ o ∈ s.origins, o ∈ (updateStep env s e).origins) ∧
    (∀ t, s.locked t = true → (updateStep env s e).locked t = true) := by
  rcases updateStep_eq env s e with ⟨heq, _⟩ | ⟨t, _, hunlocked, _, _, heq⟩ <;> rw [heq]
  · exact ⟨fun t ht => ht, fun o ho => ho, fun t ht => ht⟩
  · refine ⟨fun u hu => List.mem_cons_of_mem _ hu,
      fun o ho => mem_originInsert_of_mem _ _ _ ho, ?_⟩
    intro u hu
    by_cases hut : u = t
    · simp [lockSet, hut]
    · simpa [lockSet, hut] using hu

theorem updFold_fields (env : Env) :
    ∀ (entries : List (String × List Nat)) (s : MinerState),
      (entries.foldl (updateStep env) s).pending = s.pending ∧
      (entries.foldl (updateStep env) s).currentlyExecutingPrice =
        s.currentlyExecutingPrice ∧
      (entries.foldl (updateStep env) s).isBusy = s.isBusy ∧
      (entries.foldl (updateStep env) s).pendingFlag = s.pendingFlag := by
  intro entries
  induction entries with
  | nil => intro s; exact ⟨rfl, rfl, rfl, rfl⟩
  | cons e rest ih =>
    intro s
    simp only [List.foldl_cons]
    obtain ⟨h1, h2, h3, h4⟩ := ih (updateStep env s e)
    obtain ⟨g1, g2, g3, g4⟩ := updateStep_fields env s e
    exact ⟨h1.trans g1, h2.trans g2, h3.trans g3, h4.trans g4⟩

theorem updFold_mono (env : Env) :
    ∀ (entries : List (String × List Nat)) (s : MinerState),
      (∀ t ∈ s.priced, t ∈ (entries.foldl (updateStep env) s).priced) ∧
      (∀ o ∈ s.origins, o ∈ (entries.foldl (updateStep env) s).origins) ∧
      (∀ t, s.locked t = true → (entries.foldl (updateStep env) s).locked t = true) := by
  intro entries
  induction entries with
  | nil => intro s; exact ⟨fun t ht => ht, fun o ho => ho, fun t ht => ht⟩
  | cons e rest ih =>
    intro s
    simp only [List.foldl_cons]
    obtain ⟨h1, h2, h3⟩ := ih (updateStep env s e)
    obtain ⟨g1, g2, g3⟩ := updateStep_mono env s e
    exact ⟨fun t ht => h1 t (g1 t ht), fun o ho => h2 o (g2 o ho),
      fun t ht => h3 t (g3 t ht)⟩

theorem updFold_pushed (env : Env) :
    ∀ (entries : List (String × List Nat)) (s : MinerState),
      ∀ t ∈ (entries.foldl (updateStep env) s).priced, t ∉ s.priced →
        (∃ e ∈ entries, e.2.head? = some t) ∧ s.locked t = false ∧
        ¬ s.currentlyExecutingPrice > (env t).gasPrice ∧
        (env t).fromAddr ∉ s.origins ∧
        (entries.foldl (updateStep env) s).locked t = true ∧
        (env t).fromAddr ∈ (entries.foldl (updateStep env) s).origins := by
  intro entries
  induction entries with
  | nil => intro s t ht hnot; exact absurd ht hnot
  | cons e rest ih =>
    intro s t ht hnot
    simp only [List.foldl_cons] at ht ⊢
    by_cases hmid : t ∈ (updateStep env s e).priced
    · -- pushed at this entry
      rcases updateStep_eq env s e with ⟨heq, _⟩ | ⟨u, hhead, hunlocked, hprice, horig, heq⟩
      · rw [heq] at hmid
        exact absurd hmid hnot
      · rw [heq] at hmid
        rcases List.mem_cons.mp hmid with h1 | h1
        · subst h1
          obtain ⟨m1, m2, m3⟩ := updFold_mono env rest (updateStep env s e)
          refine ⟨⟨e, by simp, hhead⟩, hunlocked, hprice, horig, ?_, ?_⟩
          · refine m3 t ?_
            rw [heq]
            simp [lockSet]
          · refine m2 _ ?_
            rw [heq]
            exact mem_originInsert_self _ _
        · exact absurd h1 hnot
    · -- pushed at a later entry
      obtain ⟨hents, hlocked, hprice, horig, hlock', horig'⟩ :=
        ih (updateStep env s e) t ht hmid
      obtain ⟨f1, f2, f3, f4⟩ := updateStep_fields env s e
      obtain ⟨m1, m2, m3⟩ := updateStep_mono env s e
      refine ⟨?_, ?_, ?_, ?_, hlock', horig'⟩
      · obtain ⟨e', he', hh⟩ := hents
        exact ⟨e', by simp [he'], hh⟩
      · by_cases hs : s.locked t = true
        · rw [m3 t hs] at hlocked
          cases hlocked
        · simpa using hs
      · rw [f2] at hprice
        exact hprice
      · intro hc
        exact horig (m2 _ hc)

theorem mem_originInsert_iff (o x : String) (l : List String) :
    x ∈ originInsert o l ↔ x = o ∨ x ∈ l := by
  unfold originInsert
  split
  · rename_i hmem
    constructor
    · exact fun h => Or.inr h
    · rintro (rfl | h)
      · exact hmem
      · exact h
  · simp

theorem updFold_complete (env : Env) :
    ∀ (entries : List (String × List Nat)) (s : MinerState),
      ∀ e ∈ entries, ∀ t, e.2.head? = some t → s.locked t = false →
        ¬ s.currentlyExecutingPrice > (env t).gasPrice →
        (env t).fromAddr ∈ (entries.foldl (updateStep env) s).origins := by
  intro entries
  induction entries with
  | nil => intro s e he; simp at he
  | cons e0 rest ih =>
    intro s e he t hhead hunlocked hprice
    simp only [List.foldl_cons]
    obtain ⟨m1, m2, m3⟩ := updFold_mono env rest (updateStep env s e0)
    rcases List.mem_cons.mp he with h1 | h1
    · rw [h1] at hhead
      rcases updateStep_eq env s e0 with ⟨heq, hall⟩ | ⟨u, hhead', _, _, _, heq⟩
      · rcases hall t hhead with hc | hc | hc
        · rw [hunlocked] at hc
          cases hc
        · exact absurd hc hprice
        · refine m2 _ ?_
          rw [heq]
          exact hc
      · have hut : u = t := by
          rw [hhead'] at hhead
          simpa using hhead
        subst hut
        refine m2 _ ?_
        rw [heq]
        exact mem_originInsert_self _ _
    · by_cases hs' : (updateStep env s e0).locked t = false
      · have hcep := (updateStep_fields env s e0).2.1
        refine ih (updateStep env s e0) e h1 t hhead hs' ?_
        rw [hcep]
        exact hprice
      · -- the first entry locked `t`, so it pushed `t` and added its origin
        rcases updateStep_eq env s e0 with ⟨heq, _⟩ | ⟨u, _, _, _, _, heq⟩
        · rw [heq] at hs'
          exact absurd hunlocked hs'
        · have hut : t = u := by
            by_contra hc
            rw [heq] at hs'
            simp only [lockSet, if_neg hc] at hs'
            exact hs' hunlocked
          subst hut
          refine m2 _ ?_
          rw [heq]
          exact mem_originInsert_self _ _

theorem updFold_locked_change (env : Env) :
    ∀ (entries : List (String × List Nat)) (s : MinerState),
      ∀ t, (entries.foldl (updateStep env) s).locked t ≠ s.locked t →
        s.locked t = false ∧ (entries.foldl (updateStep env) s).locked t = true ∧
        t ∈ (entries.foldl (updateStep env) s).priced ∧
        (∃ e ∈ entries, e.2.head? = some t) := by
  intro entries
  induction entries with
  | nil => intro s t h; exact absurd rfl h
  | cons e0 rest ih =>
    intro s t h
    simp only [List.foldl_cons] at h ⊢
    obtain ⟨m1, m2, m3⟩ := updFold_mono env rest (updateStep env s e0)
    by_cases hst : (updateStep env s e0).locked t = s.locked t
    · rw [← hst] at h ⊢
      obtain ⟨g1, g2, g3, g4⟩ := ih (updateStep env s e0) t h
      obtain ⟨e, he, hh⟩ := g4
      exact ⟨g1, g2, g3, ⟨e, by simp [he], hh⟩⟩
    · rcases updateStep_eq env s e0 with ⟨heq, _⟩ | ⟨u, hhead, hunlocked, _, _, heq⟩
      · rw [heq] at hst
        exact absurd rfl hst
      · have hut : t = u := by
          by_contra hc
          rw [heq] at hst
          simp only [lockSet, if_neg hc] at hst
          exact hst trivial
        subst hut
        have hlock' : (updateStep env s e0).locked t = true := by
          rw [heq]
          simp [lockSet]
        refine ⟨hunlocked, m3 t hlock', m1 t ?_, ⟨e0, by simp, hhead⟩⟩
        rw [heq]
        exact List.mem_cons_self _ _

theorem updFold_origins_change (env : Env) :
    ∀ (entries : List (String × List Nat)) (s : MinerState),
      ∀ o ∈ (entries.foldl (updateStep env) s).origins, o ∉ s.origins →
        ∃ t, t ∈ (entries.foldl (updateStep env) s).priced ∧
          (env t).fromAddr = o ∧ s.locked t = false ∧
          (∃ e ∈ entries, e.2.head? = some t) := by
  intro entries
  induction entries with
  | nil => intro s o ho hnot; exact absurd ho hnot
  | cons e0 rest ih =>
    intro s o ho hnot
    simp only [List.foldl_cons] at ho ⊢
    obtain ⟨m1, m2, m3⟩ := updFold_mono env rest (updateStep env s e0)
    by_cases hmid : o ∈ (updateStep env s e0).origins
    · rcases updateStep_eq env s e0 with ⟨heq, _⟩ | ⟨u, hhead, hunlocked, _, _, heq⟩
      · rw [heq] at hmid
        exact absurd hmid hnot
      · rw [heq] at hmid
        rcases (mem_originInsert_iff _ _ _).mp hmid with h1 | h1
        · refine ⟨u, m1 u ?_, h1.symm, hunlocked, ⟨e0, by simp, hhead⟩⟩
          rw [heq]
          exact List.mem_cons_self _ _
        · exact absurd h1 hnot
    · obtain ⟨t, g1, g2, g3, e, he, hh⟩ := ih (updateStep env s e0) o ho hmid
      refine ⟨t, g1, g2, ?_, ⟨e, by simp [he], hh⟩⟩
      by_cases hs : s.locked t = true
      · have hstep := (updateStep_mono env s e0).2.2 t hs
        rw [hstep] at g3
        cases g3
      · simpa using hs

/-- C7: `#updatePricedHeap` characterized.  It never removes from the priced
heap or origin set, leaves the pool, `#currentlyExecutingPrice` and the
`#isBusy`/`#pending` flags alone, and (i) every transaction it pushes was
the unlocked head of some pending entry whose price is not beaten by
`#currentlyExecutingPrice` and whose origin was not yet represented, and is
locked with its origin added; (ii) conversely, every pending-entry head that
is unlocked and not price-skipped has its origin represented afterwards;
(iii) a `locked` flag changes only by locking a pushed head; (iv) an origin
appears only for a pushed head. -/
theorem c7_update_priced_heap (env : Env) (st : MinerState) :
    (∀ t ∈ st.priced, t ∈ (updatePricedHeap env st).priced) ∧
    (∀ o ∈ st.origins, o ∈ (updatePricedHeap env st).origins) ∧
    (updatePricedHeap env st).pending = st.pending ∧
    (updatePricedHeap env st).currentlyExecutingPrice = st.currentlyExecutingPrice ∧
    (updatePricedHeap env st).isBusy = st.isBusy ∧
    (updatePricedHeap env st).pendingFlag = st.pendingFlag ∧
    (∀ t ∈ (updatePricedHeap env st).priced, t ∉ st.priced →
      (∃ e ∈ st.pending, e.2.head? = some t) ∧ st.locked t = false ∧
      ¬ st.currentlyExecutingPrice > (env t).gasPrice ∧
      (env t).fromAddr ∉ st.origins ∧
      (updatePricedHeap env st).locked t = true ∧
      (env t).fromAddr ∈ (updatePricedHeap env st).origins) ∧
    (∀ e ∈ st.pending, ∀ t, e.2.head? = some t → st.locked t = false →
      ¬ st.currentlyExecutingPrice > (env t).gasPrice →
      (env t).fromAddr ∈ (updatePricedHeap env st).origins) ∧
    (∀ t, (updatePricedHeap env st).locked t ≠ st.locked t →
      st.locked t = false ∧ (updatePricedHeap env st).locked t = true ∧
      t ∈ (updatePricedHeap env st).priced ∧
      (∃ e ∈ st.pending, e.2.head? = some t)) ∧
    (∀ o ∈ (updatePricedHeap env st).origins, o ∉ st.origins →
      ∃ t, t ∈ (updatePricedHeap env st).priced ∧ (env t).fromAddr = o ∧
        st.locked t = false ∧ (∃ e ∈ st.pending, e.2.head? = some t)) := by
  obtain ⟨m1, m2, m3⟩ := updFold_mono env st.pending st
  obtain ⟨f1, f2, f3, f4⟩ := updFold_fields env st.pending st
  exact ⟨m1, m2, f1, f2, f3, f4,
    updFold_pushed env st.pending st,
    updFold_complete env st.pending st,
    updFold_locked_change env st.pending st,
    updFold_origins_change env st.pending st⟩

theorem c7_update_priced_heap_witness :
    (updatePricedHeap exEnv exSeeded).pending = exSeeded.pending :=
  (c7_update_priced_heap exEnv exSeeded).2.2.1

/-! ## Claims C8 and C10 -/

/-- Case analysis for one origin of the seed iteration: either nothing
happens (no head, or a locked head), or the unlocked head is pushed and
locked with its origin added. -/
theorem seedStep_eq (env : Env) (s : MinerState) (e : String × List Nat) :
    (seedStep env s e = s ∧ (∀ t, e.2.head? = some t → s.locked t = true)) ∨
    (∃ t, e.2.head? = some t ∧ s.locked t = false ∧
      seedStep env s e =
        { s with
          origins := originInsert (env t).fromAddr s.origins
          priced := t :: s.priced
          locked := lockSet s.locked t true }) := by
  unfold seedStep
  split
  · rename_i hnone
    refine Or.inl ⟨rfl, ?_⟩
    intro t ht
    rw [hnone] at ht
    cases ht
  · rename_i next hsome
    have hinj : ∀ t, e.2.head? = some t → t = next := by
      intro t ht
      rw [hsome] at ht
      simpa using ht.symm
    split
    · rename_i hlocked
      refine Or.inl ⟨rfl, ?_⟩
      intro t ht
      rw [hinj t ht]
      exact hlocked
    · rename_i hlocked
      exact Or.inr ⟨next, hsome, by simpa using hlocked, rfl⟩

theorem seedStep_fields (env : Env) (s : MinerState) (e : String × List Nat) :
    (seedStep env s e).pending = s.pending ∧
    (seedStep env s e).pendingFlag = s.pendingFlag ∧
    (seedStep env s e).isBusy = s.isBusy ∧
    (∀ t, s.locked t = true → (seedStep env s e).locked t = true) := by
  rcases seedStep_eq env s e with ⟨heq, _⟩ | ⟨u, _, hunlocked, heq⟩ <;> rw [heq]
  · exact ⟨rfl, rfl, rfl, fun t ht => ht⟩
  · refine ⟨rfl, rfl, rfl, ?_⟩
    intro t ht
    by_cases htu : t = u
    · simp [lockSet, htu]
    · simpa [lockSet, htu] using ht

theorem seedFold_fields (env : Env) :
    ∀ (entries : List (String × List Nat)) (s : MinerState),
      (entries.foldl (seedStep env) s).pending = s.pending ∧
      (entries.foldl (seedStep env) s).pendingFlag = s.pendingFlag ∧
      (entries.foldl (seedStep env) s).isBusy = s.isBusy ∧
      (∀ t, s.locked t = true → (entries.foldl (seedStep env) s).locked t = true) := by
  intro entries
  induction entries with
  | nil => intro s; exact ⟨rfl, rfl, rfl, fun t ht => ht⟩
  | cons e rest ih =>
    intro s
    simp only [List.foldl_cons]
    obtain ⟨h1, h2, h3, h4⟩ := ih (seedStep env s e)
    obtain ⟨g1, g2, g3, g4⟩ := seedStep_fields env s e
    exact ⟨h1.trans g1, h2.trans g2, h3.trans g3, fun t ht => h4 t (g4 t ht)⟩

/-- After the seed fold, every head of every iterated entry is locked. -/
theorem seedFold_locks (env : Env) :
    ∀ (entries : List (String × List Nat)) (s : MinerState),
      ∀ e ∈ entries, ∀ t, e.2.head? = some t →
        (entries.foldl (seedStep env) s).locked t = true := by
  intro entries
  induction entries with
  | nil => intro s e he; simp at he
  | cons e0 rest ih =>
    intro s e he t hhead
    simp only [List.foldl_cons]
    have hmono := (seedFold_fields env rest (seedStep env s e0)).2.2.2
    rcases List.mem_cons.mp he with h1 | h1
    · rw [h1] at hhead
      rcases seedStep_eq env s e0 with ⟨heq, hall⟩ | ⟨u, hhead', _, heq⟩
      · refine hmono t ?_
        rw [heq]
        exact hall t hhead
      · have hut : u = t := by
          rw [hhead'] at hhead
          simpa using hhead
        subst hut
        refine hmono u ?_
        rw [heq]
        simp [lockSet]
    · exact ih (seedStep env s e0) e h1 t hhead

/-- When every pending head is already locked, the seed phase is a no-op:
those transactions are invisible to it. -/
theorem setPricedHeap_of_all_locked (env : Env) (s : MinerState)
    (h : ∀ e ∈ s.pending, ∀ t, e.2.head? = some t → s.locked t = true) :
    setPricedHeap env s = s := by
  unfold setPricedHeap
  have : ∀ (entries : List (String × List Nat)),
      (∀ e ∈ entries, ∀ t, e.2.head? = some t → s.locked t = true) →
      entries.foldl (seedStep env) s = s := by
    intro entries
    induction entries with
    | nil => intro _; rfl
    | cons e0 rest ih =>
      intro hall
      simp only [List.foldl_cons]
      have hstep : seedStep env s e0 = s := by
        rcases seedStep_eq env s e0 with ⟨heq, _⟩ | ⟨u, hhead, hunlocked, _⟩
        · exact heq
        · rw [hall e0 (by simp) u hhead] at hunlocked
          cases hunlocked
      rw [hstep]
      exact ih (fun e he t ht => hall e (by simp [he]) t ht)
  exact this s.pending h

/-- C8: a `mine` call made while `#isBusy` does not enter the selection
loop: its entire effect is to raise the `#pending` flag and absorb arrivals
with `#updatePricedHeap`; it returns `undefined`, emits no block and makes
no state-manager call. -/
theorem c8_busy_gate (env : Env) (evm : Evm) (blockGasLimit : Nat)
    (instamine : Bool) (outerFuel innerFuel reFuel : Nat) (maxTransactions : Int)
    (onlyOneBlock : Bool) (st : MinerState) (hbusy : st.isBusy = true) :
    mine env evm blockGasLimit instamine outerFuel innerFuel reFuel
        maxTransactions onlyOneBlock st =
      ⟨none, updatePricedHeap env { st with pendingFlag := true }, [], [], true⟩ ∧
    (mine env evm blockGasLimit instamine outerFuel innerFuel reFuel
        maxTransactions onlyOneBlock st).result = none ∧
    (mine env evm blockGasLimit instamine outerFuel innerFuel reFuel
        maxTransactions onlyOneBlock st).st.pendingFlag = true ∧
    (mine env evm blockGasLimit instamine outerFuel innerFuel reFuel
        maxTransactions onlyOneBlock st).blocks = [] ∧
    (mine env evm blockGasLimit instamine outerFuel innerFuel reFuel
        maxTransactions onlyOneBlock st).log = [] := by
  have h1 : mine env evm blockGasLimit instamine outerFuel innerFuel reFuel
      maxTransactions onlyOneBlock st =
      ⟨none, updatePricedHeap env { st with pendingFlag := true }, [], [], true⟩ := by
    unfold mine
    rw [if_pos hbusy]
  refine ⟨h1, by rw [h1], ?_, by rw [h1], by rw [h1]⟩
  rw [h1]
  show (updatePricedHeap env { st with pendingFlag := true }).pendingFlag = true
  unfold updatePricedHeap
  exact (updFold_fields env _ _).2.2.2

theorem c8_busy_gate_witness :
    (mine exEnv exEvm 30000 false 1 1 1 (-1) false
      { exSeeded with isBusy := true }).result = none :=
  (c8_busy_gate exEnv exEvm 30000 false 1 1 1 (-1) false
    { exSeeded with isBusy := true } rfl).2.1

/-- Computation of `mine` with `maxTransactions = 0`: the seed phase runs,
then `#mineTxs` checkpoints, commits, emits an empty block and resets
without touching any `locked` flag. -/
theorem mine_maxTx_zero (env : Env) (evm : Evm) (blockGasLimit : Nat)
    (instamine onlyOneBlock : Bool) (fo fi fr : Nat)
    (pending : List (String × List Nat)) :
    mine env evm blockGasLimit instamine (fo + 1) fi (fr + 1) 0 onlyOneBlock
        (initState pending) =
      ⟨some [],
        reset { setPricedHeap env (initState pending) with isBusy := true },
        [⟨[], 0⟩], [CkptEvent.checkpoint, CkptEvent.commit], true⟩ := by
  have hpf : (setPricedHeap env (initState pending)).pendingFlag = false := by
    unfold setPricedHeap
    exact (seedFold_fields env _ _).2.1
  unfold mine
  rw [if_neg (by simp [initState])]
  unfold mineInner mineTxs mineTxsGo
  simp [reset, hpf]

/-- C10: calling `mine` with `maxTransactions = 0` on a fresh miner leaves
every pool-head transaction that the seed phase locked with
`locked = true` after `mine` returns: the early-exit path clears `priced`
and `origins` through `#reset` (which never touches `locked`), returns an
empty transaction list — and a subsequent seed phase pushes nothing, since
every head is still locked. -/
theorem c10_locked_leak (env : Env) (evm : Evm) (blockGasLimit : Nat)
    (instamine onlyOneBlock : Bool) (fo fi fr : Nat)
    (pending : List (String × List Nat)) :
    (∀ e ∈ pending, ∀ t, e.2.head? = some t →
      (mine env evm blockGasLimit instamine (fo + 1) fi (fr + 1) 0 onlyOneBlock
        (initState pending)).st.locked t = true) ∧
    (mine env evm blockGasLimit instamine (fo + 1) fi (fr + 1) 0 onlyOneBlock
      (initState pending)).st.priced = [] ∧
    (mine env evm blockGasLimit instamine (fo + 1) fi (fr + 1) 0 onlyOneBlock
      (initState pending)).st.origins = [] ∧
    (mine env evm blockGasLimit instamine (fo + 1) fi (fr + 1) 0 onlyOneBlock
      (initState pending)).result = some [] ∧
    (setPricedHeap env
      (mine env evm blockGasLimit instamine (fo + 1) fi (fr + 1) 0 onlyOneBlock
        (initState pending)).st).priced = [] := by
  rw [mine_maxTx_zero env evm blockGasLimit instamine onlyOneBlock fo fi fr pending]
  have hlocks : ∀ e ∈ pending, ∀ t, e.2.head? = some t →
      (setPricedHeap env (initState pending)).locked t = true := by
    intro e he t ht
    unfold setPricedHeap
    exact seedFold_locks env (initState pending).pending (initState pending) e he t ht
  have hpend : (setPricedHeap env (initState pending)).pending = pending := by
    unfold setPricedHeap
    exact (seedFold_fields env _ _).1
  refine ⟨?_, rfl, rfl, rfl, ?_⟩
  · intro e he t ht
    exact hlocks e he t ht
  · rw [setPricedHeap_of_all_locked]
    · rfl
    · intro e he t ht
      refine hlocks e ?_ t ht
      have hp2 : (reset { setPricedHeap env (initState pending) with
          isBusy := true }).pending = pending := by
        simpa [reset] using hpend
      rw [hp2] at he
      exact he

theorem c10_locked_leak_witness :
    (mine exEnv exEvm 30000 false 1 1 1 0 false (initState exPending)).st.locked 0
      = true :=
  (c10_locked_leak exEnv exEvm 30000 false false 0 1 0 exPending).1
    ("a", [0]) (by decide) 0 rfl

/-! ## Claims C2 and C3: gas accounting and checkpoint balance -/

/-- A selection-loop iteration either leaves the block artifacts untouched or
accepts the heap root `best`, whose EVM gas `g` fits the remaining block gas,
appending it and accounting `g`. -/
theorem mineStep_gas_cases (env : Env) (evm : Evm) (maxTx : Int) (ls : LoopState) :
    ((mineStep env evm maxTx ls).1.blockTransactions = ls.blockTransactions ∧
      (mineStep env evm maxTx ls).1.gasUsed = ls.gasUsed ∧
      (mineStep env evm maxTx ls).1.blockGasLeft = ls.blockGasLeft) ∨
    (∃ best g, heapPeek env ls.ms.priced = some best ∧ evm best = Except.ok g ∧
      g ≤ ls.blockGasLeft ∧
      (mineStep env evm maxTx ls).1.blockTransactions = ls.blockTransactions ++ [best] ∧
      (mineStep env evm maxTx ls).1.gasUsed = ls.gasUsed + g ∧
      (mineStep env evm maxTx ls).1.blockGasLeft = ls.blockGasLeft - g) := by
  cases hpeek : heapPeek env ls.ms.priced with
  | none =>
    rw [mineStep_none env evm maxTx ls hpeek]
    exact Or.inl ⟨rfl, rfl, rfl⟩
  | some best =>
    by_cases hgas : (env best).intrinsicGas > ls.blockGasLeft
    · rw [mineStep_skip env evm maxTx ls best hpeek hgas]
      exact Or.inl ⟨rfl, rfl, rfl⟩
    · cases hevm : evm best with
      | error msg =>
        rw [mineStep_throw env evm maxTx ls best msg hpeek hgas hevm]
        exact Or.inl ⟨rfl, rfl, rfl⟩
      | ok g =>
        by_cases hfits : ls.blockGasLeft ≥ g
        · rw [mineStep_accept env evm maxTx ls best g hpeek hgas hevm hfits]
          exact Or.inr ⟨best, g, rfl, hevm, hfits, rfl, rfl, rfl⟩
        · rw [mineStep_overflow env evm maxTx ls best g hpeek hgas hevm hfits]
          exact Or.inl ⟨rfl, rfl, rfl⟩

/-- A selection-loop iteration extends the state-manager call log by nothing
(empty heap or intrinsic-gas skip), by checkpoint-commit (exactly when it
accepts a transaction into the block), or by checkpoint-revert (VM throw or
overflow). -/
theorem mineStep_log_cases (env : Env) (evm : Evm) (maxTx : Int) (ls : LoopState) :
    ∃ delta, (mineStep env evm maxTx ls).1.ckptLog = ls.ckptLog ++ delta ∧
      (delta = [] ∨ delta = [CkptEvent.checkpoint, CkptEvent.commit] ∨
        delta = [CkptEvent.checkpoint, CkptEvent.revert]) ∧
      (delta = [CkptEvent.checkpoint, CkptEvent.commit] ↔
        (mineStep env evm maxTx ls).1.blockTransactions ≠ ls.blockTransactions) := by
  cases hpeek : heapPeek env ls.ms.priced with
  | none =>
    rw [mineStep_none env evm maxTx ls hpeek]
    exact ⟨[], by simp, Or.inl rfl, by simp⟩
  | some best =>
    by_cases hgas : (env best).intrinsicGas > ls.blockGasLeft
    · rw [mineStep_skip env evm maxTx ls best hpeek hgas]
      exact ⟨[], by simp, Or.inl rfl, by simp⟩
    · cases hevm : evm best with
      | error msg =>
        rw [mineStep_throw env evm maxTx ls best msg hpeek hgas hevm]
        exact ⟨[CkptEvent.checkpoint, CkptEvent.revert], rfl,
          Or.inr (Or.inr rfl), by simp⟩
      | ok g =>
        by_cases hfits : ls.blockGasLeft ≥ g
        · rw [mineStep_accept env evm maxTx ls best g hpeek hgas hevm hfits]
          exact ⟨[CkptEvent.checkpoint, CkptEvent.commit], rfl,
            Or.inr (Or.inl rfl), by simp⟩
        · rw [mineStep_overflow env evm maxTx ls best g hpeek hgas hevm hfits]
          exact ⟨[CkptEvent.checkpoint, CkptEvent.revert], rfl,
            Or.inr (Or.inr rfl), by simp⟩

/-- Run a checkpoint log against a nesting depth: `none` signals a
commit/revert with no open checkpoint; otherwise the final depth. -/
def runLog : List CkptEvent → Nat → Option Nat
  | [], d => some d
  | CkptEvent.checkpoint :: rest, d => runLog rest (d + 1)
  | CkptEvent.commit :: _, 0 => none
  | CkptEvent.commit :: rest, d + 1 => runLog rest d
  | CkptEvent.revert :: _, 0 => none
  | CkptEvent.revert :: rest, d + 1 => runLog rest d

theorem runLog_append :
    ∀ (l1 l2 : List CkptEvent) (d : Nat),
      runLog (l1 ++ l2) d = (runLog l1 d).bind (runLog l2) := by
  intro l1
  induction l1 with
  | nil => intro l2 d; simp [runLog]
  | cons e rest ih =>
    intro l2 d
    cases e <;> cases d <;> simp [runLog, ih]

/-- The selection loop only ever appends depth-neutral checkpoint activity
to the log. -/
theorem mineLoop_log (env : Env) (evm : Evm) (maxTx : Int) :
    ∀ (fuel : Nat) (ls : LoopState),
      ∃ delta, (mineLoop env evm maxTx fuel ls).1.ckptLog = ls.ckptLog ++ delta ∧
        ∀ d, runLog delta d = some d := by
  intro fuel
  induction fuel with
  | zero =>
    intro ls
    exact ⟨[], by simp [mineLoop], fun d => rfl⟩
  | succ fuel ih =>
    intro ls
    obtain ⟨delta, hlog, hneutral⟩ := mineStep_log_cases env evm maxTx ls
    have hneutral' : ∀ d, runLog delta d = some d := by
      intro d
      rcases hneutral.1 with h | h | h <;> subst h <;> rfl
    simp only [mineLoop]
    cases hres : (mineStep env evm maxTx ls).2 with
    | continueLoop =>
      obtain ⟨delta2, hlog2, hneutral2⟩ := ih (mineStep env evm maxTx ls).1
      refine ⟨delta ++ delta2, ?_, ?_⟩
      · rw [hlog2, hlog, List.append_assoc]
      · intro d
        rw [runLog_append, hneutral' d]
        exact hneutral2 d
    | breakLoop => exact ⟨delta, hlog, hneutral'⟩
    | exitLoop => exact ⟨delta, hlog, hneutral'⟩

/-- The selection loop preserves the gas accounting invariant: the
accumulated `gasUsed` plus the remaining block gas equals the block gas
limit, and `gasUsed` equals the sum of the accepted transactions' EVM
gas. -/
theorem mineLoop_gas (env : Env) (evm : Evm) (maxTx : Int) (limit : Nat) :
    ∀ (fuel : Nat) (ls : LoopState),
      ls.gasUsed + ls.blockGasLeft = limit →
      (ls.blockTransactions.map (txGasUsed evm)).sum = ls.gasUsed →
      (mineLoop env evm maxTx fuel ls).1.gasUsed +
        (mineLoop env evm maxTx fuel ls).1.blockGasLeft = limit ∧
      ((mineLoop env evm maxTx fuel ls).1.blockTransactions.map
        (txGasUsed evm)).sum = (mineLoop env evm maxTx fuel ls).1.gasUsed := by
  intro fuel
  induction fuel with
  | zero =>
    intro ls h1 h2
    simpa [mineLoop] using ⟨h1, h2⟩
  | succ fuel ih =>
    intro ls h1 h2
    have hstep : (mineStep env evm maxTx ls).1.gasUsed +
        (mineStep env evm maxTx ls).1.blockGasLeft = limit ∧
        ((mineStep env evm maxTx ls).1.blockTransactions.map
          (txGasUsed evm)).sum = (mineStep env evm maxTx ls).1.gasUsed := by
      rcases mineStep_gas_cases env evm maxTx ls with
        ⟨g1, g2, g3⟩ | ⟨best, g, _, hevm, hle, g1, g2, g3⟩
      · rw [g1, g2, g3]
        exact ⟨h1, h2⟩
      · rw [g1, g2, g3]
        constructor
        · omega
        · have : txGasUsed evm best = g := by
            unfold txGasUsed
            rw [hevm]
          simp [this, h2]
    simp only [mineLoop]
    cases hres : (mineStep env evm maxTx ls).2 with
    | continueLoop => exact ih (mineStep env evm maxTx ls).1 hstep.1 hstep.2
    | breakLoop => exact hstep
    | exitLoop => exact hstep

/-- Every block emitted by `#mineTxs` (beyond those already emitted) has its
`gasUsed` equal to the sum of its transactions' EVM gas and bounded by the
block gas limit. -/
theorem mineTxsGo_blocks (env : Env) (evm : Evm) (limit : Nat)
    (instamine onlyOne : Bool) (fi : Nat) :
    ∀ (fo : Nat) (maxTx : Int) (st : MinerState) (blocks : List BlockData)
      (log : List CkptEvent),
      ∀ bd ∈ (mineTxsGo env evm limit instamine onlyOne fi
          fo maxTx st blocks log).blocks,
        bd ∈ blocks ∨
        ((bd.blockTransactions.map (txGasUsed evm)).sum = bd.gasUsed ∧
          bd.gasUsed ≤ limit) := by
  intro fo
  induction fo with
  | zero =>
    intro maxTx st blocks log bd hbd
    simp only [mineTxsGo] at hbd
    exact Or.inl hbd
  | succ fo ih =>
    intro maxTx st blocks log bd hbd
    have hloop := mineLoop_gas env evm maxTx limit fi
      ⟨{ st with isBusy := true }, limit, 0, 0, [], log ++ [CkptEvent.checkpoint],
        false⟩ (by simp) (by simp)
    have hle : (mineLoop env evm maxTx fi
        ⟨{ st with isBusy := true }, limit, 0, 0, [],
          log ++ [CkptEvent.checkpoint], false⟩).1.gasUsed ≤ limit := by
      omega
    simp only [mineTxsGo] at hbd
    split at hbd
    · -- maxTransactions = 0
      simp only [MineTxsOut.mk.injEq] at hbd
      rcases List.mem_append.mp hbd with h1 | h1
      · exact Or.inl h1
      · refine Or.inr ?_
        have : bd = ⟨[], 0⟩ := by simpa using h1
        subst this
        simp
    · split at hbd
      · -- onlyOneBlock
        rcases List.mem_append.mp hbd with h1 | h1
        · exact Or.inl h1
        · refine Or.inr ?_
          have hbd' : bd = ⟨(mineLoop env evm maxTx fi
              ⟨{ st with isBusy := true }, limit, 0, 0, [],
                log ++ [CkptEvent.checkpoint], false⟩).1.blockTransactions,
              (mineLoop env evm maxTx fi
              ⟨{ st with isBusy := true }, limit, 0, 0, [],
                log ++ [CkptEvent.checkpoint], false⟩).1.gasUsed⟩ := by
            simpa using h1
          subst hbd'
          exact ⟨hloop.2, hle⟩
      · split at hbd
        · split at hbd
          · -- re-iterate with a fresh block
            rcases ih _ _ _ _ bd hbd with h1 | h1
            · rcases List.mem_append.mp h1 with h2 | h2
              · exact Or.inl h2
              · refine Or.inr ?_
                have hbd' : bd = ⟨(mineLoop env evm maxTx fi
                    ⟨{ st with isBusy := true }, limit, 0, 0, [],
                      log ++ [CkptEvent.checkpoint], false⟩).1.blockTransactions,
                    (mineLoop env evm maxTx fi
                    ⟨{ st with isBusy := true }, limit, 0, 0, [],
                      log ++ [CkptEvent.checkpoint], false⟩).1.gasUsed⟩ := by
                  simpa using h2
                subst hbd'
                exact ⟨hloop.2, hle⟩
            · exact Or.inr h1
          · rcases List.mem_append.mp hbd with h1 | h1
            · exact Or.inl h1
            · refine Or.inr ?_
              have hbd' : bd = ⟨(mineLoop env evm maxTx fi
                  ⟨{ st with isBusy := true }, limit, 0, 0, [],
                    log ++ [CkptEvent.checkpoint], false⟩).1.blockTransactions,
                  (mineLoop env evm maxTx fi
                  ⟨{ st with isBusy := true }, limit, 0, 0, [],
                    log ++ [CkptEvent.checkpoint], false⟩).1.gasUsed⟩ := by
                simpa using h1
              subst hbd'
              exact ⟨hloop.2, hle⟩
        · split at hbd
          · rcases ih _ _ _ _ bd hbd with h1 | h1
            · rcases List.mem_append.mp h1 with h2 | h2
              · exact Or.inl h2
              · refine Or.inr ?_
                have hbd' : bd = ⟨(mineLoop env evm maxTx fi
                    ⟨{ st with isBusy := true }, limit, 0, 0, [],
                      log ++ [CkptEvent.checkpoint], false⟩).1.blockTransactions,
                    (mineLoop env evm maxTx fi
                    ⟨{ st with isBusy := true }, limit, 0, 0, [],
                      log ++ [CkptEvent.checkpoint], false⟩).1.gasUsed⟩ := by
                  simpa using h2
                subst hbd'
                exact ⟨hloop.2, hle⟩
            · exact Or.inr h1
          · rcases List.mem_append.mp hbd with h1 | h1
            · exact Or.inl h1
            · refine Or.inr ?_
              have hbd' : bd = ⟨(mineLoop env evm maxTx fi
                  ⟨{ st with isBusy := true }, limit, 0, 0, [],
                    log ++ [CkptEvent.checkpoint], false⟩).1.blockTransactions,
                  (mineLoop env evm maxTx fi
                  ⟨{ st with isBusy := true }, limit, 0, 0, [],
                    log ++ [CkptEvent.checkpoint], false⟩).1.gasUsed⟩ := by
                simpa using h1
              subst hbd'
              exact ⟨hloop.2, hle⟩

/-- `#mineTxs` only appends depth-neutral checkpoint activity to the log:
every checkpoint it opens is matched by exactly one commit or revert. -/
theorem mineTxsGo_log (env : Env) (evm : Evm) (limit : Nat)
    (instamine onlyOne : Bool) (fi : Nat) :
    ∀ (fo : Nat) (maxTx : Int) (st : MinerState) (blocks : List BlockData)
      (log : List CkptEvent),
      ∃ delta, (mineTxsGo env evm limit instamine onlyOne fi
          fo maxTx st blocks log).log = log ++ delta ∧
        ∀ d, runLog delta d = some d := by
  intro fo
  induction fo with
  | zero =>
    intro maxTx st blocks log
    exact ⟨[], by simp [mineTxsGo], fun d => rfl⟩
  | succ fo ih =>
    intro maxTx st blocks log
    obtain ⟨dl, hdl, hdl_neutral⟩ := mineLoop_log env evm maxTx fi
      ⟨{ st with isBusy := true }, limit, 0, 0, [], log ++ [CkptEvent.checkpoint],
        false⟩
    have hblock : ∀ d, runLog ([CkptEvent.checkpoint] ++ dl ++ [CkptEvent.commit]) d
        = some d := by
      intro d
      rw [runLog_append, runLog_append]
      show ((runLog [CkptEvent.checkpoint] d).bind (runLog dl)).bind
        (runLog [CkptEvent.commit]) = some d
      have h1 : runLog [CkptEvent.checkpoint] d = some (d + 1) := rfl
      rw [h1]
      show (runLog dl (d + 1)).bind (runLog [CkptEvent.commit]) = some d
      rw [hdl_neutral (d + 1)]
      rfl
    have hlog2 : (mineLoop env evm maxTx fi
        ⟨{ st with isBusy := true }, limit, 0, 0, [],
          log ++ [CkptEvent.checkpoint], false⟩).1.ckptLog ++ [CkptEvent.commit] =
        log ++ ([CkptEvent.checkpoint] ++ dl ++ [CkptEvent.commit]) := by
      rw [hdl]
      simp
    simp only [mineTxsGo]
    split
    · -- maxTransactions = 0
      refine ⟨[CkptEvent.checkpoint, CkptEvent.commit], by simp, ?_⟩
      intro d
      rfl
    · split
      · -- onlyOneBlock
        exact ⟨[CkptEvent.checkpoint] ++ dl ++ [CkptEvent.commit], hlog2, hblock⟩
      · split
        · split
          · obtain ⟨dr, hdr, hdr_neutral⟩ := ih _ _ _ _
            refine ⟨[CkptEvent.checkpoint] ++ dl ++ [CkptEvent.commit] ++ dr, ?_, ?_⟩
            · rw [hdr, hlog2]
              simp
            · intro d
              rw [show [CkptEvent.checkpoint] ++ dl ++ [CkptEvent.commit] ++ dr =
                ([CkptEvent.checkpoint] ++ dl ++ [CkptEvent.commit]) ++ dr by simp,
                runLog_append, hblock d]
              exact hdr_neutral d
          · exact ⟨[CkptEvent.checkpoint] ++ dl ++ [CkptEvent.commit], hlog2, hblock⟩
        · split
          · obtain ⟨dr, hdr, hdr_neutral⟩ := ih _ _ _ _
            refine ⟨[CkptEvent.checkpoint] ++ dl ++ [CkptEvent.commit] ++ dr, ?_, ?_⟩
            · rw [hdr, hlog2]
              simp
            · intro d
              rw [show [CkptEvent.checkpoint] ++ dl ++ [CkptEvent.commit] ++ dr =
                ([CkptEvent.checkpoint] ++ dl ++ [CkptEvent.commit]) ++ dr by simp,
                runLog_append, hblock d]
              exact hdr_neutral d
          · exact ⟨[CkptEvent.checkpoint] ++ dl ++ [CkptEvent.commit], hlog2, hblock⟩

/-- C2: for every block emitted by a `#mineTxs` run, the sum of the EVM
`gasUsed` of its accepted transactions equals the emitted
`blockData.gasUsed`, which is at most the configured block gas limit; and a
selection-loop iteration only accepts a transaction whose `gasUsed` does not
exceed the gas remaining in the block. -/
theorem c2_block_gas (env : Env) (evm : Evm) (limit : Nat)
    (instamine onlyOne : Bool) (fo fi : Nat) (maxTx : Int) (st : MinerState)
    (bd : BlockData)
    (hbd : bd ∈ (mineTxs env evm limit instamine onlyOne fo fi maxTx st).blocks) :
    ((bd.blockTransactions.map (txGasUsed evm)).sum = bd.gasUsed ∧
      bd.gasUsed ≤ limit) ∧
    (∀ (maxTx' : Int) (ls : LoopState) (b : Nat),
      (mineStep env evm maxTx' ls).1.blockTransactions =
        ls.blockTransactions ++ [b] →
      txGasUsed evm b ≤ ls.blockGasLeft) := by
  constructor
  · unfold mineTxs at hbd
    rcases mineTxsGo_blocks env evm limit instamine onlyOne fi fo maxTx st [] []
      bd hbd with h1 | h1
    · exact absurd h1 (List.not_mem_nil bd)
    · exact h1
  · intro maxTx' ls b hacc
    rcases mineStep_gas_cases env evm maxTx' ls with
      ⟨h1, _, _⟩ | ⟨best, g, _, hevm, hle, h1, _, _⟩
    · rw [h1] at hacc
      exact absurd hacc (by simp)
    · rw [h1] at hacc
      have hb : best = b := by simpa using hacc
      subst hb
      have hg : txGasUsed evm best = g := by
        unfold txGasUsed
        rw [hevm]
      rw [hg]
      exact hle

theorem c2_block_gas_witness :
    ((BlockData.mk [0] 21000).blockTransactions.map (txGasUsed exEvm)).sum =
      (BlockData.mk [0] 21000).gasUsed :=
  ((c2_block_gas exEnv exEvm 30000 false false 3 5 (-1) exSeeded ⟨[0], 21000⟩
    (by decide)).1).1

/-- C3: every state-manager checkpoint opened by a `#mineTxs` run is
balanced by exactly one commit or revert (`runLog` of the whole call log
returns to depth 0 without underflow); when `maxTransactions` is 0 the run's
log is exactly checkpoint-then-commit; and each selection-loop iteration
appends nothing, checkpoint-commit (exactly when it accepts a transaction
into the block), or checkpoint-revert (VM throw or overflow). -/
theorem c3_checkpoint_balance (env : Env) (evm : Evm) (limit : Nat)
    (instamine onlyOne : Bool) (fo fi : Nat) (maxTx : Int) (st : MinerState) :
    runLog (mineTxs env evm limit instamine onlyOne fo fi maxTx st).log 0
      = some 0 ∧
    (maxTx = 0 → 0 < fo →
      (mineTxs env evm limit instamine onlyOne fo fi maxTx st).log =
        [CkptEvent.checkpoint, CkptEvent.commit]) ∧
    (∀ (maxTx' : Int) (ls : LoopState), ∃ delta,
      (mineStep env evm maxTx' ls).1.ckptLog = ls.ckptLog ++ delta ∧
      (delta = [] ∨ delta = [CkptEvent.checkpoint, CkptEvent.commit] ∨
        delta = [CkptEvent.checkpoint, CkptEvent.revert]) ∧
      (delta = [CkptEvent.checkpoint, CkptEvent.commit] ↔
        (mineStep env evm maxTx' ls).1.blockTransactions ≠
          ls.blockTransactions)) := by
  refine ⟨?_, ?_, fun maxTx' ls => mineStep_log_cases env evm maxTx' ls⟩
  · obtain ⟨delta, hlog, hneutral⟩ :=
      mineTxsGo_log env evm limit instamine onlyOne fi fo maxTx st [] []
    unfold mineTxs
    rw [hlog]
    simpa using hneutral 0
  · intro hmax hfo
    obtain ⟨fo', rfl⟩ := Nat.exists_eq_succ_of_ne_zero (Nat.pos_iff_ne_zero.mp hfo)
    subst hmax
    unfold mineTxs
    simp [mineTxsGo]

theorem c3_checkpoint_balance_witness :
    (mineTxs exEnv exEvm 30000 false true 1 1 0 exSeeded).log =
      [CkptEvent.checkpoint, CkptEvent.commit] :=
  (c3_checkpoint_balance exEnv exEvm 30000 false true 1 1 0 exSeeded).2.1 rfl
    (by decide)

end Miner
